import Mathlib

/-!
Verification of the go2web CLI web client (src/go2web.py and its earlier
revision src/lab5.py).

Strings are modelled as `List Char`; Python `bytes` decoded with
`errors="ignore"` are identified with their character lists.  Each
`re.sub`-based transformation of `clean_html` is modelled by a left-to-right
scanner `subF` (one fuel unit per scan position, `fuel = length` always
suffices because every step consumes at least one input character, exactly
as `re.sub` advances).  A matcher `m : List Char → Option (List Char)`
returns the rest of the input after a match at the current position, or
`none` when the regex does not match there, mirroring Python's leftmost,
non-overlapping, greedy semantics for the concrete patterns of the source.
-/

/-- Python's `\s` (ASCII part) and the whitespace set of `str.strip`. -/
def pySpace (c : Char) : Bool :=
  (c == ' ') || (c == '\t') || (c == '\n') || (c == '\r') || (c == '\x0b') || (c == '\x0c')

/-- If `lit` is a literal prefix of `l`, return the rest of `l`. -/
def dropLit : List Char → List Char → Option (List Char)
  | [], l => some l
  | _ :: _, [] => none
  | a :: lit, c :: l => if a = c then dropLit lit l else none

/-- Rest of `l` after the first occurrence of the literal `lit`. -/
def findAfter (lit : List Char) : List Char → Option (List Char)
  | [] => dropLit lit []
  | c :: r =>
    match dropLit lit (c :: r) with
    | some rest => some rest
    | none => findAfter lit r

/-- Does the literal `lit` occur anywhere in `l`? -/
def containsLit (lit l : List Char) : Bool := (findAfter lit l).isSome

/-- Rest of `l` after the first `>` character (the regex step `[^>]*>`). -/
def dropThroughGt : List Char → Option (List Char)
  | [] => none
  | c :: r => if c = '>' then some r else dropThroughGt r

/-- `re.sub` engine: scan left to right with matcher `m`; a match is replaced
by `rep` and scanning resumes after it, otherwise the character is kept and
the scan advances one position.  `fuel ≥ length` always suffices. -/
def subF (m : List Char → Option (List Char)) (rep : List Char) :
    Nat → List Char → List Char
  | _, [] => []
  | 0, l => l
  | n + 1, c :: r =>
    match m (c :: r) with
    | some rest => rep ++ subF m rep n rest
    | none => c :: subF m rep n r

/-- `re.sub(pattern-modelled-by-m, rep, l)`. -/
def subAll (m : List Char → Option (List Char)) (rep : List Char) (l : List Char) :
    List Char :=
  subF m rep l.length l

/-- Matcher for `<script[^>]*>.*?</script>` (DOTALL): the non-greedy `.*?`
stops at the first `</script>`. -/
def scriptM (l : List Char) : Option (List Char) :=
  match dropLit ("<script".data) l with
  | none => none
  | some r1 =>
    match dropThroughGt r1 with
    | none => none
    | some r2 => findAfter ("</script>".data) r2

/-- Matcher for `<style[^>]*>.*?</style>` (DOTALL). -/
def styleM (l : List Char) : Option (List Char) :=
  match dropLit ("<style".data) l with
  | none => none
  | some r1 =>
    match dropThroughGt r1 with
    | none => none
    | some r2 => findAfter ("</style>".data) r2

/-- Matcher for the literal `&nbsp;`. -/
def nbspM (l : List Char) : Option (List Char) := dropLit ("&nbsp;".data) l

/-- Matcher for the literal `&amp;`. -/
def ampM (l : List Char) : Option (List Char) := dropLit ("&amp;".data) l

/-- Matcher for the literal `&lt;`. -/
def ltM (l : List Char) : Option (List Char) := dropLit ("&lt;".data) l

/-- Matcher for the literal `&gt;`. -/
def gtM (l : List Char) : Option (List Char) := dropLit ("&gt;".data) l

/-- Matcher for the literal `&quot;`. -/
def quotM (l : List Char) : Option (List Char) := dropLit ("&quot;".data) l

/-- `[0-9A-Fa-f]`. -/
def isHexDigit (c : Char) : Bool :=
  c.isDigit || (('A' ≤ c) && (c ≤ 'F')) || (('a' ≤ c) && (c ≤ 'f'))

/-- Matcher for `&#x[0-9A-Fa-f]+;`. -/
def hexRefM (l : List Char) : Option (List Char) :=
  match dropLit ("&#x".data) l with
  | none => none
  | some r1 =>
    if (r1.takeWhile isHexDigit).isEmpty then none
    else
      match r1.dropWhile isHexDigit with
      | ';' :: rest => some rest
      | _ => none

/-- Matcher for `&#[0-9]+;`. -/
def decRefM (l : List Char) : Option (List Char) :=
  match dropLit ("&#".data) l with
  | none => none
  | some r1 =>
    if (r1.takeWhile Char.isDigit).isEmpty then none
    else
      match r1.dropWhile Char.isDigit with
      | ';' :: rest => some rest
      | _ => none

/-- Matcher for `<br[^>]*>`. -/
def brM (l : List Char) : Option (List Char) :=
  match dropLit ("<br".data) l with
  | none => none
  | some r1 => dropThroughGt r1

/-- Matcher for the literal `</p>`. -/
def closePM (l : List Char) : Option (List Char) := dropLit ("</p>".data) l

/-- Matcher for the literal `</div>`. -/
def closeDivM (l : List Char) : Option (List Char) := dropLit ("</div>".data) l

/-- Matcher for `</h[1-6]>`. -/
def closeHM (l : List Char) : Option (List Char) :=
  match dropLit ("</h".data) l with
  | none => none
  | some r1 =>
    match r1 with
    | d :: '>' :: rest => if ('1' ≤ d) && (d ≤ '6') then some rest else none
    | _ => none

/-- Matcher for the literal `</tr>`. -/
def closeTrM (l : List Char) : Option (List Char) := dropLit ("</tr>".data) l

/-- Matcher for the literal `</li>`. -/
def closeLiM (l : List Char) : Option (List Char) := dropLit ("</li>".data) l

/-- The alternation `div|p|h[1-6]|tr|td|li|ul|ol` (no alternative is a prefix
of another, so at most one matches at a position). -/
def blockAlt (l : List Char) : Option (List Char) :=
  match dropLit ("div".data) l with
  | some r => some r
  | none =>
  match dropLit ("p".data) l with
  | some r => some r
  | none =>
  match l with
  | 'h' :: d :: r =>
    if ('1' ≤ d) && (d ≤ '6') then some r else
    match dropLit ("tr".data) ('h' :: d :: r) with
    | some r2 => some r2
    | none => none
  | _ =>
  match dropLit ("tr".data) l with
  | some r => some r
  | none =>
  match dropLit ("td".data) l with
  | some r => some r
  | none =>
  match dropLit ("li".data) l with
  | some r => some r
  | none =>
  match dropLit ("ul".data) l with
  | some r => some r
  | none => dropLit ("ol".data) l

/-- Matcher for `<(div|p|h[1-6]|tr|td|li|ul|ol)[^>]*>`. -/
def blockOpenM (l : List Char) : Option (List Char) :=
  match l with
  | '<' :: r =>
    match blockAlt r with
    | some r2 => dropThroughGt r2
    | none => none
  | _ => none

/-- Matcher for `<[^>]*>`: a `<` with some later `>`; `[^>]*` runs up to the
first `>`. -/
def tagM (l : List Char) : Option (List Char) :=
  match l with
  | '<' :: r => dropThroughGt r
  | _ => none

/-- Matcher for `' +'` (run of spaces, replaced by one space). -/
def spaceM (l : List Char) : Option (List Char) :=
  match l with
  | ' ' :: r => some (r.dropWhile (fun c => c == ' '))
  | _ => none

/-- Matcher for `\t+` (run of tabs, replaced by one space). -/
def tabM (l : List Char) : Option (List Char) :=
  match l with
  | '\t' :: r => some (r.dropWhile (fun c => c == '\t'))
  | _ => none

/-- Matcher for `\n{3,}` (run of three or more newlines, replaced by two). -/
def nlM (l : List Char) : Option (List Char) :=
  match l with
  | '\n' :: '\n' :: '\n' :: r => some (r.dropWhile (fun c => c == '\n'))
  | _ => none

/-- Matcher for `[0-9]+\s*\>` (patterns like `767>`). -/
def numGtM (l : List Char) : Option (List Char) :=
  match l with
  | c :: r =>
    if c.isDigit then
      match (r.dropWhile Char.isDigit).dropWhile pySpace with
      | '>' :: rest => some rest
      | _ => none
    else none
  | _ => none

/-- Matcher for `minProd\)\s*&&\s*\(\$index`. -/
def minProdM (l : List Char) : Option (List Char) :=
  match dropLit ("minProd)".data) l with
  | none => none
  | some r1 =>
    match dropLit ("&&".data) (r1.dropWhile pySpace) with
    | none => none
    | some r2 => dropLit ("($index".data) (r2.dropWhile pySpace)

/-- Helper for `split('\n')`: first line and remaining lines. -/
def splitNLp : List Char → List Char × List (List Char)
  | [] => ([], [])
  | c :: r =>
    if c = '\n' then ([], (splitNLp r).1 :: (splitNLp r).2)
    else (c :: (splitNLp r).1, (splitNLp r).2)

/-- `text.split('\n')` (always nonempty, `''.split('\n') = ['']`). -/
def splitNL (l : List Char) : List (List Char) := (splitNLp l).1 :: (splitNLp l).2

/-- Drop the longest suffix of characters satisfying `p`. -/
def dropEndWhile (p : Char → Bool) (l : List Char) : List Char :=
  (l.reverse.dropWhile p).reverse

/-- Python `str.strip()` (whitespace modelled by `pySpace`). -/
def stripWS (l : List Char) : List Char := dropEndWhile pySpace (l.dropWhile pySpace)

/-- The character class of `^[\s\*\=\-\_\+\.\,\;\:]*$`. -/
def isJunkChar (c : Char) : Bool :=
  pySpace c || (c == '*') || (c == '=') || (c == '-') || (c == '_') ||
    (c == '+') || (c == '.') || (c == ',') || (c == ';') || (c == ':')

/-- A stripped line is kept iff it is nonempty and not made of junk only. -/
def keepLine (l : List Char) : Bool :=
  !(l.isEmpty) && l.any (fun c => !(isJunkChar c))

/-- `'\n'.join(lines)`. -/
def joinNL : List (List Char) → List Char
  | [] => []
  | [a] => a
  | a :: b :: ls => a ++ '\n' :: joinNL (b :: ls)

/-- The line-by-line pass of `clean_html`: split on `\n`, strip each line,
drop empty and junk-only lines, rejoin with single newlines. -/
def processLines (l : List Char) : List Char :=
  joinNL (((splitNL l).map stripWS).filter keepLine)

/-- `clean_html` of src/go2web.py lines 112-165: the regex substitutions in
source order, then line processing, newline collapsing, junk-pattern removal
and a final strip. -/
def clean_html (l : List Char) : List Char :=
  let t1 := subAll scriptM (" ".data) l
  let t2 := subAll styleM (" ".data) t1
  let t3 := subAll nbspM (" ".data) t2
  let t4 := subAll ampM ("&".data) t3
  let t5 := subAll ltM ("<".data) t4
  let t6 := subAll gtM (">".data) t5
  let t7 := subAll quotM ("\"".data) t6
  let t8 := subAll hexRefM [] t7
  let t9 := subAll decRefM [] t8
  let t10 := subAll brM ("\n".data) t9
  let t11 := subAll closePM ("\n\n".data) t10
  let t12 := subAll closeDivM ("\n".data) t11
  let t13 := subAll closeHM ("\n\n".data) t12
  let t14 := subAll closeTrM ("\n".data) t13
  let t15 := subAll closeLiM ("\n".data) t14
  let t16 := subAll blockOpenM ("\n".data) t15
  let t17 := subAll tagM [] t16
  let t18 := subAll spaceM (" ".data) t17
  let t19 := subAll tabM (" ".data) t18
  let t20 := processLines t19
  let t21 := subAll nlM ("\n\n".data) t20
  let t22 := subAll numGtM [] t21
  let t23 := subAll minProdM [] t22
  stripWS t23

/-!
Cache model.  go2web.py keys each record by `sha256(url)` and stores a JSON
record `{timestamp, url, content}` in its own file; the hash is modelled as
injective, so the file system is an association list from the url key to
`(createdAt, content)`.  Timestamps are integers (seconds).
-/

/-- The on-disk cache: one record per key, newest first (a later `store`
shadows an earlier record of the same key, i.e. overwrites the file). -/
abbrev FS := List (List Char × Int × List Char)

/-- Read the record of `key`, if its file exists. -/
def fsLookup : FS → List Char → Option (Int × List Char)
  | [], _ => none
  | (k, t, v) :: fs, key => if k = key then some (t, v) else fsLookup fs key

/-- `get_from_cache` of src/go2web.py lines 26-44: return the stored content
iff the record exists and `now - timestamp < 600`; expired records are left
on disk and ignored. -/
def get_from_cache (fs : FS) (url : List Char) (now : Int) : Option (List Char) :=
  match fsLookup fs url with
  | some (ts, content) => if now - ts < 600 then some content else none
  | none => none

/-- `store_in_cache` of src/go2web.py lines 47-62: overwrite the record of
`url` with the current time and the response. -/
def store_in_cache (fs : FS) (url response : List Char) (now : Int) : FS :=
  (url, now, response) :: fs

/-- `get_cached_response` of src/lab5.py lines 72-78: return the file's
content whenever the file exists.  The file's creation time (first component
of the record) and the current time play no part: lab5 stores no timestamp
and never checks one. -/
def get_cached_response (fs : FS) (key : List Char) : Option (List Char) :=
  match fsLookup fs key with
  | some (_, content) => some content
  | none => none

/-!
Response parsing and redirect handling.
-/

/-- The header/body boundary `\r\n\r\n`. -/
def http_delim : List Char := ['\r', '\n', '\r', '\n']

/-- Everything after the first `\r\n\r\n`, or `[]` when there is none:
go2web.py's `response.split(b"\r\n\r\n", 1)` (body `b""` when no delimiter)
and lab5.py's `response.partition("\r\n\r\n")` body component. -/
def afterFirstDelim : List Char → List Char
  | [] => []
  | c :: r =>
    match dropLit http_delim (c :: r) with
    | some rest => rest
    | none => afterFirstDelim r

/-- `parse_http_response` of src/lab5.py lines 52-55 (and go2web.py lines
99-100). -/
def parse_http_response (resp : List Char) : List Char := afterFirstDelim resp

/-- go2web.py line 90: `'HTTP/1.1 301' in response_text or 'HTTP/1.1 302' in
response_text` (a substring test over the whole response). -/
def isRedirectResp (t : List Char) : Bool :=
  containsLit ("HTTP/1.1 301".data) t || containsLit ("HTTP/1.1 302".data) t

/-- Try `Location: (http[^\r\n]+)` at the current position. -/
def tryLoc (l : List Char) : Option (List Char) :=
  match dropLit ("Location: http".data) l with
  | none => none
  | some r1 =>
    let tail := r1.takeWhile (fun c => !(c == '\r') && !(c == '\n'))
    if tail.isEmpty then none else some (("http".data) ++ tail)

/-- go2web.py line 91: first match of `Location: (http[^\r\n]+)`. -/
def findLocation : List Char → Option (List Char)
  | [] => none
  | c :: r =>
    match tryLoc (c :: r) with
    | some url => some url
    | none => findLocation r

/-- A character that ends the netloc component of a URL. -/
def endsNetloc (c : Char) : Bool := (c == '/') || (c == '?') || (c == '#')

/-- `urllib.parse.urlparse(u).netloc`, modelled for the absolute
`http(s)://…` URLs that `findLocation` produces. -/
def urlNetloc (u : List Char) : List Char :=
  match findAfter ("://".data) u with
  | some r => r.takeWhile (fun c => !(endsNetloc c))
  | none => []

/-- `urllib.parse.urlparse(u).path` (query and fragment excluded), modelled
for absolute `http(s)://…` URLs. -/
def urlPathOf (u : List Char) : List Char :=
  match findAfter ("://".data) u with
  | some r => (r.dropWhile (fun c => !(endsNetloc c))).takeWhile
      (fun c => !(c == '?') && !(c == '#'))
  | none => u.takeWhile (fun c => !(c == '?') && !(c == '#'))

/-- Extract body, clean it and cache it under `url`: the non-redirect tail of
`make_http_request` (go2web.py lines 98-106). -/
def go2webBody (fs : FS) (now : Int) (url resp : List Char) : List Char × FS :=
  let cleaned := clean_html (afterFirstDelim resp)
  (cleaned, store_in_cache fs url cleaned now)

/-- `make_http_request` of src/go2web.py lines 65-109.  The network is an
oracle from host and path to either an error message (any socket exception,
rendered by `f"Error: {e}"`) or the decoded response text.  The source
recurses on every redirect with no bound, so the model carries an explicit
recursion budget `fuel`; `none` means the budget was exhausted while the
source would still be recursing.  A cached value is returned only when it is
non-empty (`if cached_response:` is false for the empty string). -/
def make_http_request
    (net : List Char → List Char → Except (List Char) (List Char)) :
    Nat → FS → Int → List Char → List Char → Option (List Char × FS)
  | 0, _, _, _, _ => none
  | fuel + 1, fs, now, host, path =>
    let url := host ++ path
    match get_from_cache fs url now with
    | some (c :: cs) => some (c :: cs, fs)
    | _ =>
      match net host path with
      | .error e => some (("Error: ".data) ++ e, fs)
      | .ok resp =>
        if isRedirectResp resp then
          match findLocation resp with
          | some loc => make_http_request net fuel fs now (urlNetloc loc) (urlPathOf loc)
          | none => some (go2webBody fs now url resp)
        else some (go2webBody fs now url resp)

/-!
Search adapter: go2web.py line 178,
`re.findall(r'<a rel="nofollow" href="(https?://[^"]+)"', response)`,
truncated to the first 10 matches (line 183).
-/

/-- Finish the anchor pattern after its scheme: `[^"]+` up to the closing
quote, which must be present and the body nonempty. -/
def anchorBody (scheme r3 : List Char) : Option (List Char × List Char) :=
  let body := r3.takeWhile (fun c => !(c == '"'))
  if body.isEmpty then none
  else
    match r3.dropWhile (fun c => !(c == '"')) with
    | '"' :: r4 => some (scheme ++ body, r4)
    | _ => none

/-- Try `<a rel="nofollow" href="(https?://[^"]+)"` at the current position;
on success return the captured URL and the rest after the match. -/
def tryAnchor (l : List Char) : Option (List Char × List Char) :=
  match dropLit ("<a rel=\"nofollow\" href=\"".data) l with
  | none => none
  | some r1 =>
    match dropLit ("http".data) r1 with
    | none => none
    | some r2 =>
      match r2 with
      | 's' :: r2a =>
        match dropLit ("://".data) r2a with
        | some r3 => anchorBody ("https://".data) r3
        | none => none
      | _ =>
        match dropLit ("://".data) r2 with
        | some r3 => anchorBody ("http://".data) r3
        | none => none

/-- `re.findall` scan: collect the captures of all non-overlapping matches,
left to right. -/
def findAnchors : Nat → List Char → List (List Char)
  | _, [] => []
  | 0, _ => []
  | n + 1, c :: r =>
    match tryAnchor (c :: r) with
    | some (u, rest) => u :: findAnchors n rest
    | none => findAnchors n r

/-- The result list of `search_duckduckgo` (go2web.py lines 178-183): all
anchor captures of the scanned text, truncated to the first 10. -/
def search_duckduckgo_links (resp : List Char) : List (List Char) :=
  (findAnchors resp.length resp).take 10

/-!
The request lines written by the two transports.
-/

/-- go2web.py line 11. -/
def USER_AGENT : List Char :=
  ("Mozilla/5.0 (Windows NT 10.0; Win64; x64) AppleWebKit/537.36 (KHTML, like Gecko) Chrome/91.0.4472.124 Safari/537.36").data

/-- The request bytes of go2web.py line 76. -/
def go2web_request (host path : List Char) : List Char :=
  ("GET ".data) ++ path ++ (" HTTP/1.1\r\nHost: ".data) ++ host ++
    ("\r\nUser-Agent: ".data) ++ USER_AGENT ++ ("\r\nConnection: close\r\n\r\n".data)

/-- The request bytes of src/lab5.py line 13 (no User-Agent header). -/
def lab5_request (host path : List Char) : List Char :=
  ("GET ".data) ++ path ++ (" HTTP/1.1\r\nHost: ".data) ++ host ++
    ("\r\nConnection: close\r\n\r\n".data)

/-- go2web.py line 74: `s.connect((host, 80))`. -/
def go2web_port : Nat := 80

/-- src/lab5.py line 11: the `port=80` default, used at every call site. -/
def lab5_port : Nat := 80

/-- Modelled from the spec (section 6, "Wire protocol produced"): the exact
request bytes the spec claims the Transport writes. -/
def spec_request (host path : List Char) : List Char :=
  ("GET ".data) ++ path ++ (" HTTP/1.1\r\nHost: ".data) ++ host ++
    ("\r\nUser-Agent: ".data) ++ USER_AGENT ++ ("\r\nConnection: close\r\n\r\n".data)

/-- The spec's request format with the User-Agent line removed: what the
lab5 revision actually sends. -/
def spec_request_noua (host path : List Char) : List Char :=
  ("GET ".data) ++ path ++ (" HTTP/1.1\r\nHost: ".data) ++ host ++
    ("\r\nConnection: close\r\n\r\n".data)

/-- The angle-bracket characters of a string, in order. -/
def angles (l : List Char) : List Char := l.filter (fun c => (c == '<') || (c == '>'))

/-! ### No complete angle pair remains after tag stripping -/

/-- No `>` occurs in the string. -/
def noGt : List Char → Bool
  | [] => true
  | c :: r => if c = '>' then false else noGt r

/-- No `<` is followed (anywhere later) by a `>`. -/
def noLtThenGt : List Char → Bool
  | [] => true
  | c :: r => if c = '<' then noGt r else noLtThenGt r

/-! ### Angle characters only shrink through the line-processing stages -/

/-- Concatenation of the angle characters of a list of lines. -/
def catAngles : List (List Char) → List Char
  | [] => []
  | a :: t => angles a ++ catAngles t

/-! ### C6: the search adapter -/

/-- A search-result anchor element for url `u`, in the provider's markup. -/
def anchorFor (u : List Char) : List Char :=
  ("<a rel=\"nofollow\" href=\"".data) ++ u ++ ("\">x</a> ".data)

/-- A stub page made of the anchors of the given urls, in document order. -/
def pageOf (us : List (List Char)) : List Char :=
  (us.map anchorFor).foldr (fun a b => a ++ b) []

/-- The i-th distinct stub url. -/
def urlFor (i : Nat) : List Char :=
  ("http://".data) ++ [Char.ofNat (97 + i)] ++ ("/".data)

/-- A stub page with 15 anchor elements, all with distinct urls. -/
def page15 : List Char := pageOf ((List.range 15).map urlFor)

/-- A stub page with 15 anchor elements that all carry the same url. -/
def dupPage : List Char := pageOf (List.replicate 15 (("http://dup/").data))

/-! ### C2: redirect resolution on a self-redirecting server -/

/-- The response of a server that always 301-redirects to itself. -/
def selfRedirectResp : List Char :=
  ("HTTP/1.1 301 Moved Permanently\r\nLocation: http://a/\r\n\r\n").data

/-- A network in which every request is answered by `selfRedirectResp`. -/
def selfRedirectNet : List Char → List Char → Except (List Char) (List Char) :=
  fun _ _ => .ok selfRedirectResp

/-- The stub redirecting response used by the C10 witness. -/
def respA0 : List Char := ("HTTP/1.1 301 Moved\r\nLocation: http://b/x\r\n\r\ndead").data

/-- The stub final response used by the C10 witness. -/
def respB0 : List Char := ("HTTP/1.1 200 OK\r\n\r\n<p>hi</p>").data

/-- The stub network of the C10 witness: host `a` redirects to
`http://b/x`, everything else answers 200. -/
def net0 : List Char → List Char → Except (List Char) (List Char) :=
  fun h _ => if h = ("a").data then .ok respA0 else .ok respB0

/-! ### C5 toolbox: adjacent-duplicate freedom and head/tail stability -/

/-- The head of `l`, if any, does not satisfy `p`. -/
def headNotP (p : Char → Bool) : List Char → Bool
  | [] => true
  | c :: _ => !(p c)

/-- No two adjacent occurrences of `a` in `l`. -/
def noTwo (a : Char) : List Char → Bool
  | c :: d :: r => if c = a ∧ d = a then false else noTwo a (d :: r)
  | _ => true

/-! ### C7, lab5 side: the failure is not converted to a string there -/

/-- `cache_response` of src/lab5.py lines 64-69: the file holds only the
text; the `now` component models the file's creation time (metadata), which
lab5 never reads back. -/
def cache_response (fs : FS) (key data : List Char) (now : Int) : FS :=
  (key, now, data) :: fs

/-- The fetch path of src/lab5.py's `go_to_url` (lines 81-98), with the
BeautifulSoup-based text extraction abstracted as `extract` (an external
library, not part of this repository).  No `try`/`except` exists anywhere on
this path: a DNS/connect/send/receive failure of the socket code (lines
15-23) propagates out of the program, modelled as `Except.error` carrying
the raw exception; the cache is returned untouched in that case. -/
def lab5_go_to_url (extract : List Char → List Char)
    (net : List Char → List Char → Except (List Char) (List Char))
    (fs : FS) (now : Int) (host path : List Char) :
    Except (List Char) (List Char) × FS :=
  match get_cached_response fs (host ++ path) with
  | some (c :: cs) => (.ok (c :: cs), fs)
  | _ =>
    match net host path with
    | .error e => (.error e, fs)
    | .ok resp =>
      let text := extract (parse_http_response resp)
      (.ok text, cache_response fs (host ++ path) text now)

open List

/-! ### Basic facts about the scanner primitives -/

theorem dropLit_eq {lit l r : List Char} (h : dropLit lit l = some r) : l = lit ++ r := by
  induction lit generalizing l with
  | nil => simp [dropLit] at h; simp [h]
  | cons a t ih =>
    cases l with
    | nil => simp [dropLit] at h
    | cons c cs =>
      by_cases hac : a = c
      · subst hac
        simp only [dropLit, if_pos rfl] at h
        simpa using ih h
      · simp [dropLit, hac] at h

theorem dropLit_self (lit r : List Char) : dropLit lit (lit ++ r) = some r := by
  induction lit with
  | nil => rfl
  | cons a t ih => simp [dropLit, ih]

theorem dropLit_suffix {lit l r : List Char} (h : dropLit lit l = some r) : r <:+ l :=
  ⟨lit, (dropLit_eq h).symm⟩

theorem dropThroughGt_suffix {l r : List Char} (h : dropThroughGt l = some r) : r <:+ l := by
  induction l with
  | nil => simp [dropThroughGt] at h
  | cons c cs ih =>
    by_cases hc : c = '>'
    · subst hc
      simp [dropThroughGt] at h
      subst h
      exact suffix_cons _ _
    · simp only [dropThroughGt, if_neg hc] at h
      exact (ih h).trans (suffix_cons c cs)

theorem dropThroughGt_length {l r : List Char} (h : dropThroughGt l = some r) :
    r.length < l.length := by
  induction l with
  | nil => simp [dropThroughGt] at h
  | cons c cs ih =>
    by_cases hc : c = '>'
    · subst hc
      simp [dropThroughGt] at h
      subst h
      simp
    · simp only [dropThroughGt, if_neg hc] at h
      exact (ih h).trans (by simp)

theorem dropThroughGt_none {l : List Char} (h : dropThroughGt l = none) : '>' ∉ l := by
  induction l with
  | nil => simp
  | cons c cs ih =>
    by_cases hc : c = '>'
    · subst hc; simp [dropThroughGt] at h
    · simp only [dropThroughGt, if_neg hc] at h
      intro hx
      rcases List.mem_cons.mp hx with h1 | h1
      · exact hc h1.symm
      · exact ih h h1

theorem findAfter_suffix {lit l r : List Char} (h : findAfter lit l = some r) : r <:+ l := by
  induction l with
  | nil =>
    simp only [findAfter] at h
    exact dropLit_suffix h
  | cons c cs ih =>
    simp only [findAfter] at h
    cases hd : dropLit lit (c :: cs) with
    | some rest => rw [hd] at h; cases h; exact dropLit_suffix hd
    | none => rw [hd] at h; exact (ih h).trans (suffix_cons c cs)

theorem findAfter_cons_none {lit : List Char} {c : Char} {r : List Char}
    (h : findAfter lit (c :: r) = none) : findAfter lit r = none := by
  simp only [findAfter] at h
  cases hd : dropLit lit (c :: r) with
  | some rest => rw [hd] at h; cases h
  | none => rw [hd] at h; exact h

/-! ### Generic lemmas about `subF` -/

theorem subF_suffix_sublist {m : List Char → Option (List Char)}
    (hm : ∀ l r, m l = some r → r <:+ l) :
    ∀ n l, Sublist (subF m [] n l) l := by
  intro n
  induction n with
  | zero => intro l; cases l <;> simp [subF]
  | succ n ih =>
    intro l
    cases l with
    | nil => simp [subF]
    | cons c r =>
      simp only [subF]
      cases hmc : m (c :: r) with
      | some rest =>
        simp only [nil_append]
        exact (ih rest).trans ((hm _ _ hmc).sublist)
      | none => exact (ih r).cons₂ c

theorem angles_append (a b : List Char) : angles (a ++ b) = angles a ++ angles b := by
  simp [angles]

theorem angles_sublist {l₁ l₂ : List Char} (h : Sublist l₁ l₂) :
    Sublist (angles l₁) (angles l₂) := h.filter _

theorem subF_angles {m : List Char → Option (List Char)} {rep : List Char}
    (hm : ∀ l r, m l = some r → r <:+ l) (hrep : angles rep = []) :
    ∀ n l, Sublist (angles (subF m rep n l)) (angles l) := by
  intro n
  induction n with
  | zero => intro l; cases l <;> simp [subF, angles]
  | succ n ih =>
    intro l
    cases l with
    | nil => simp [subF, angles]
    | cons c r =>
      simp only [subF]
      cases hmc : m (c :: r) with
      | some rest =>
        rw [angles_append, hrep, nil_append]
        exact (ih rest).trans (angles_sublist (hm _ _ hmc).sublist)
      | none =>
        show Sublist (angles (c :: subF m rep n r)) (angles (c :: r))
        by_cases hc : ((c == '<') || (c == '>')) = true
        · simpa [angles, filter_cons, hc] using (ih r).cons₂ c
        · simpa [angles, filter_cons, hc] using (ih r)

theorem subF_eq_self {m : List Char → Option (List Char)} {rep l : List Char}
    (h : ∀ t, t <:+ l → m t = none) : ∀ n, subF m rep n l = l := by
  induction l with
  | nil => intro n; cases n <;> simp [subF]
  | cons c r ih =>
    intro n
    cases n with
    | zero => simp [subF]
    | succ n =>
      simp only [subF, h (c :: r) suffix_rfl]
      rw [ih (fun t ht => h t (ht.trans (suffix_cons c r))) n]

theorem mem_subF {m : List Char → Option (List Char)} {rep : List Char}
    (hm : ∀ l r, m l = some r → r <:+ l) :
    ∀ n l x, x ∈ subF m rep n l → x ∈ l ∨ x ∈ rep := by
  intro n
  induction n with
  | zero => intro l x hx; cases l <;> simp_all [subF]
  | succ n ih =>
    intro l x hx
    cases l with
    | nil => simp [subF] at hx
    | cons c r =>
      simp only [subF] at hx
      cases hmc : m (c :: r) with
      | some rest =>
        rw [hmc] at hx
        rcases mem_append.mp hx with h | h
        · exact Or.inr h
        · rcases ih rest x h with h2 | h2
          · exact Or.inl ((hm _ _ hmc).subset h2)
          · exact Or.inr h2
      | none =>
        rw [hmc] at hx
        rcases mem_cons.mp hx with h | h
        · exact Or.inl (h ▸ mem_cons_self c r)
        · rcases ih r x h with h2 | h2
          · exact Or.inl (mem_cons_of_mem c h2)
          · exact Or.inr h2

/-! ### Suffix lemmas for the matchers used after tag stripping -/

theorem tagM_suffix : ∀ l r, tagM l = some r → r <:+ l := by
  intro l r h
  cases l with
  | nil => simp [tagM] at h
  | cons c cs =>
    by_cases hc : c = '<'
    · subst hc
      simp only [tagM] at h
      exact (dropThroughGt_suffix h).trans (suffix_cons '<' cs)
    · cases c <;> simp_all [tagM]

theorem spaceM_suffix : ∀ l r, spaceM l = some r → r <:+ l := by
  intro l r h
  cases l with
  | nil => simp [spaceM] at h
  | cons c cs =>
    by_cases hc : c = ' '
    · subst hc
      simp only [spaceM, Option.some.injEq] at h
      subst h
      exact (dropWhile_suffix _).trans (suffix_cons ' ' cs)
    · cases c <;> simp_all [spaceM]

theorem tabM_suffix : ∀ l r, tabM l = some r → r <:+ l := by
  intro l r h
  cases l with
  | nil => simp [tabM] at h
  | cons c cs =>
    by_cases hc : c = '\t'
    · subst hc
      simp only [tabM, Option.some.injEq] at h
      subst h
      exact (dropWhile_suffix _).trans (suffix_cons '\t' cs)
    · cases c <;> simp_all [tabM]

theorem nlM_eq_some {l r : List Char} (h : nlM l = some r) :
    ∃ cs, l = '\n' :: '\n' :: '\n' :: cs ∧ r = cs.dropWhile (fun c => c == '\n') := by
  unfold nlM at h
  split at h
  · rename_i cs
    simp only [Option.some.injEq] at h
    exact ⟨cs, rfl, h.symm⟩
  · cases h

theorem nlM_suffix : ∀ l r, nlM l = some r → r <:+ l := by
  intro l r h
  obtain ⟨cs, rfl, rfl⟩ := nlM_eq_some h
  exact (dropWhile_suffix _).trans
    (((suffix_cons '\n' cs).trans (suffix_cons '\n' _)).trans (suffix_cons '\n' _))

theorem numGtM_suffix : ∀ l r, numGtM l = some r → r <:+ l := by
  intro l r h
  cases l with
  | nil => simp [numGtM] at h
  | cons c cs =>
    simp only [numGtM] at h
    split at h
    · split at h
      · rename_i rest heq
        simp only [Option.some.injEq] at h
        have h1 : rest <:+ (cs.dropWhile Char.isDigit).dropWhile pySpace := by
          rw [heq]; exact suffix_cons '>' rest
        rw [← h]
        exact ((h1.trans (dropWhile_suffix _)).trans (dropWhile_suffix _)).trans
          (suffix_cons c cs)
      · cases h
    · cases h

theorem minProdM_suffix : ∀ l r, minProdM l = some r → r <:+ l := by
  intro l r h
  unfold minProdM at h
  split at h
  · cases h
  · rename_i r1 h1
    split at h
    · cases h
    · rename_i r2 h2
      have s1 : r1 <:+ l := dropLit_suffix h1
      have s2 : r2 <:+ r1 := (dropLit_suffix h2).trans (dropWhile_suffix _)
      have s3 : r <:+ r2 := (dropLit_suffix h).trans (dropWhile_suffix _)
      exact (s3.trans s2).trans s1

theorem noGt_cons_ne {c : Char} (h : c ≠ '>') (r : List Char) :
    noGt (c :: r) = noGt r := by
  simp [noGt, h]

theorem noLtThenGt_cons_lt (r : List Char) : noLtThenGt ('<' :: r) = noGt r := by
  simp [noLtThenGt]

theorem noLtThenGt_cons_ne {c : Char} (h : c ≠ '<') (r : List Char) :
    noLtThenGt (c :: r) = noLtThenGt r := by
  simp [noLtThenGt, h]

theorem angles_cons_lt (r : List Char) : angles ('<' :: r) = '<' :: angles r := by
  simp [angles, filter_cons]

theorem angles_cons_gt (r : List Char) : angles ('>' :: r) = '>' :: angles r := by
  simp [angles, filter_cons]

theorem angles_cons_other {c : Char} (h1 : c ≠ '<') (h2 : c ≠ '>') (r : List Char) :
    angles (c :: r) = angles r := by
  simp [angles, filter_cons, h1, h2]

theorem noGt_iff {l : List Char} : noGt l = true ↔ '>' ∉ l := by
  induction l with
  | nil => simp [noGt]
  | cons c r ih =>
    by_cases hc : c = '>'
    · subst hc; simp [noGt]
    · rw [noGt_cons_ne hc, ih]
      simp only [mem_cons]
      constructor
      · rintro h (h1 | h1)
        · exact hc h1.symm
        · exact h h1
      · intro h h1
        exact h (Or.inr h1)

theorem noLtThenGt_of_noGt {l : List Char} (h : noGt l = true) : noLtThenGt l = true := by
  induction l with
  | nil => rfl
  | cons c r ih =>
    by_cases hc : c = '>'
    · subst hc; simp [noGt] at h
    · rw [noGt_cons_ne hc] at h
      by_cases hlt : c = '<'
      · subst hlt; rw [noLtThenGt_cons_lt]; exact h
      · rw [noLtThenGt_cons_ne hlt]; exact ih h

theorem noLtThenGt_sublist {l₁ l₂ : List Char} (hs : Sublist l₁ l₂)
    (h : noLtThenGt l₂ = true) : noLtThenGt l₁ = true := by
  induction hs with
  | slnil => rfl
  | cons c hs ih =>
    by_cases hc : c = '<'
    · subst hc
      rw [noLtThenGt_cons_lt] at h
      exact ih (noLtThenGt_of_noGt h)
    · rw [noLtThenGt_cons_ne hc] at h
      exact ih h
  | cons₂ c hs ih =>
    by_cases hc : c = '<'
    · subst hc
      rw [noLtThenGt_cons_lt] at h ⊢
      rw [noGt_iff] at h ⊢
      exact fun hx => h (hs.subset hx)
    · rw [noLtThenGt_cons_ne hc] at h ⊢
      exact ih h

theorem noGt_angles {l : List Char} : noGt (angles l) = noGt l := by
  induction l with
  | nil => rfl
  | cons c r ih =>
    by_cases hgt : c = '>'
    · subst hgt
      rw [angles_cons_gt]
      simp [noGt]
    · by_cases hlt : c = '<'
      · subst hlt
        rw [angles_cons_lt, noGt_cons_ne (by decide) (angles r),
          noGt_cons_ne (by decide) r]
        exact ih
      · rw [angles_cons_other hlt hgt, noGt_cons_ne hgt]
        exact ih

theorem noLtThenGt_angles {l : List Char} : noLtThenGt (angles l) = noLtThenGt l := by
  induction l with
  | nil => rfl
  | cons c r ih =>
    by_cases hlt : c = '<'
    · subst hlt
      rw [angles_cons_lt, noLtThenGt_cons_lt, noLtThenGt_cons_lt]
      exact noGt_angles
    · by_cases hgt : c = '>'
      · subst hgt
        rw [angles_cons_gt, noLtThenGt_cons_ne (by decide) (angles r),
          noLtThenGt_cons_ne (by decide) r]
        exact ih
      · rw [angles_cons_other hlt hgt, noLtThenGt_cons_ne hlt]
        exact ih

theorem noLtThenGt_mono {l₁ l₂ : List Char} (h : Sublist (angles l₁) (angles l₂))
    (h2 : noLtThenGt l₂ = true) : noLtThenGt l₁ = true := by
  rw [← noLtThenGt_angles]
  rw [← noLtThenGt_angles] at h2
  exact noLtThenGt_sublist h h2

theorem tagM_eq_some {l r : List Char} (h : tagM l = some r) :
    ∃ cs, l = '<' :: cs ∧ dropThroughGt cs = some r := by
  unfold tagM at h
  split at h
  · rename_i cs
    exact ⟨cs, rfl, h⟩
  · cases h

theorem subF_tagM_noLtThenGt : ∀ n l, l.length ≤ n →
    noLtThenGt (subF tagM [] n l) = true := by
  intro n
  induction n with
  | zero =>
    intro l hl
    rw [length_eq_zero.mp (Nat.le_zero.mp hl)]
    rfl
  | succ n ih =>
    intro l hl
    cases l with
    | nil => rfl
    | cons c r =>
      simp only [subF]
      cases hmc : tagM (c :: r) with
      | some rest =>
        simp only [nil_append]
        apply ih
        obtain ⟨cs, heq, hdr⟩ := tagM_eq_some hmc
        injection heq with h1 h2
        subst h2
        have := dropThroughGt_length hdr
        simp only [length_cons] at hl
        omega
      | none =>
        by_cases hc : c = '<'
        · subst hc
          simp only [tagM] at hmc
          rw [noLtThenGt_cons_lt, noGt_iff]
          intro hx
          have hsub : Sublist (subF tagM [] n r) r :=
            subF_suffix_sublist tagM_suffix n r
          exact dropThroughGt_none hmc (hsub.subset hx)
        · rw [noLtThenGt_cons_ne hc]
          exact ih r (by simpa using Nat.le_of_succ_le_succ hl)

theorem angles_joinNL : ∀ ls, angles (joinNL ls) = catAngles ls := by
  intro ls
  induction ls with
  | nil => rfl
  | cons a t ih =>
    cases t with
    | nil => simp [joinNL, catAngles, angles]
    | cons b t2 =>
      show angles (a ++ '\n' :: joinNL (b :: t2)) = _
      rw [angles_append, angles_cons_other (by decide) (by decide), ih]
      rfl

theorem catAngles_filter (p : List Char → Bool) :
    ∀ ls, Sublist (catAngles (ls.filter p)) (catAngles ls) := by
  intro ls
  induction ls with
  | nil => simp
  | cons a t ih =>
    by_cases hp : p a
    · simp only [filter_cons, hp, cond_true, catAngles]
      exact ih.append_left (angles a)
    · simp only [filter_cons, hp, cond_false, catAngles]
      exact ih.trans (sublist_append_right (angles a) (catAngles t))

theorem prefix_dropEndWhile (p : Char → Bool) (l : List Char) :
    dropEndWhile p l <+: l := by
  obtain ⟨t, ht⟩ := dropWhile_suffix p (l := l.reverse)
  exact ⟨t.reverse, by rw [dropEndWhile, ← reverse_append, ht, reverse_reverse]⟩

theorem stripWS_sublist (l : List Char) : Sublist (stripWS l) l :=
  ((prefix_dropEndWhile pySpace _).sublist).trans (dropWhile_sublist pySpace)

theorem catAngles_map_stripWS :
    ∀ ls, Sublist (catAngles (ls.map stripWS)) (catAngles ls) := by
  intro ls
  induction ls with
  | nil => simp
  | cons a t ih =>
    simp only [map_cons, catAngles]
    exact (angles_sublist (stripWS_sublist a)).append ih

theorem catAngles_splitNLp :
    ∀ l, angles (splitNLp l).1 ++ catAngles (splitNLp l).2 = angles l := by
  intro l
  induction l with
  | nil => rfl
  | cons c r ih =>
    by_cases hc : c = '\n'
    · subst hc
      simp only [splitNLp, if_pos rfl, catAngles]
      rw [angles_cons_other (by decide) (by decide)]
      simpa [angles] using ih
    · simp only [splitNLp, if_neg hc]
      by_cases hlt : c = '<'
      · subst hlt
        rw [angles_cons_lt, angles_cons_lt, cons_append, ih]
      · by_cases hgt : c = '>'
        · subst hgt
          rw [angles_cons_gt, angles_cons_gt, cons_append, ih]
        · rw [angles_cons_other hlt hgt, angles_cons_other hlt hgt, ih]

theorem angles_processLines (l : List Char) :
    Sublist (angles (processLines l)) (angles l) := by
  unfold processLines
  rw [angles_joinNL]
  have h1 := catAngles_filter keepLine (((splitNL l).map stripWS))
  have h2 := catAngles_map_stripWS (splitNL l)
  have h3 : catAngles (splitNL l) = angles l := by
    show angles (splitNLp l).1 ++ catAngles (splitNLp l).2 = angles l
    exact catAngles_splitNLp l
  rw [← h3]
  exact h1.trans h2

/-! ### The C1 chain through the stages after tag stripping -/

theorem noLtThenGt_subAll (m : List Char → Option (List Char)) (rep : List Char)
    (hm : ∀ l r, m l = some r → r <:+ l) (hrep : angles rep = []) {l : List Char}
    (h : noLtThenGt l = true) : noLtThenGt (subAll m rep l) = true :=
  noLtThenGt_mono (subF_angles hm hrep l.length l) h

/-- C1 (amended): for every input, the output of `clean_html` never has a `<`
that is followed anywhere later by a `>`; in particular no complete tag
`<...>` survives.  (Lone `<` or `>` characters can survive, see the
counterexample.) -/
theorem C1_clean_html_no_complete_tag : ∀ l, noLtThenGt (clean_html l) = true := by
  intro l
  simp only [clean_html]
  apply noLtThenGt_mono (angles_sublist (stripWS_sublist _))
  apply noLtThenGt_subAll minProdM [] minProdM_suffix rfl
  apply noLtThenGt_subAll numGtM [] numGtM_suffix rfl
  apply noLtThenGt_subAll nlM ("\n\n".data) nlM_suffix (by decide)
  apply noLtThenGt_mono (angles_processLines _)
  apply noLtThenGt_subAll tabM (" ".data) tabM_suffix (by decide)
  apply noLtThenGt_subAll spaceM (" ".data) spaceM_suffix (by decide)
  exact subF_tagM_noLtThenGt _ _ le_rfl

/-- C1 (counterexample): on input `&lt;` the HTML Extractor outputs the
single character `<`, so its output can contain `<` (the entity decoding
step `&lt;` → `<` runs before tag stripping, and a lone `<` is not a tag). -/
theorem C1_counterexample : '<' ∈ clean_html (("&lt;").data) := by decide

/-! ### C3 and C8: the cache -/

/-- C3 (amended, go2web): when a record exists with creation time `ts` and
`now - ts ≥ 600`, `get_from_cache` returns `none` while the record file stays
on disk untouched (the lookup never writes; the record is still found
afterwards).  The lab5 revision has no expiry at all, see the
counterexample. -/
theorem C3_expired_entry_ignored_not_deleted (fs : FS) (url : List Char)
    (now ts : Int) (c : List Char) (hl : fsLookup fs url = some (ts, c))
    (hexp : 600 ≤ now - ts) :
    get_from_cache fs url now = none ∧ fsLookup fs url = some (ts, c) := by
  refine ⟨?_, hl⟩
  unfold get_from_cache
  rw [hl]
  exact if_neg (by omega)

/-- C3 (counterexample): lab5's `get_cached_response` consults neither the
clock nor any stored timestamp — a record created at time 0 (first record
component, the file's creation time) is still returned when looked up at any
later time, e.g. 10000 seconds later (`now - createdAt = 10000 ≥ 600`),
where the claim requires absent. -/
theorem C3_counterexample :
    get_cached_response [((("k").data), 0, (("v").data))] (("k").data) =
      some (("v").data) := by
  decide

/-- C3 witness. -/
theorem C3_witness :
    fsLookup [((("u").data), 0, (("c").data))] (("u").data) = some (0, ("c").data) ∧
      (600 : Int) ≤ 600 - 0 ∧
      (get_from_cache [((("u").data), 0, (("c").data))] (("u").data) 600 = none ∧
        fsLookup [((("u").data), 0, (("c").data))] (("u").data) = some (0, ("c").data)) :=
  ⟨by decide, by decide,
    C3_expired_entry_ignored_not_deleted _ _ 600 0 _ (by decide) (by decide)⟩

/-- C8: `store_in_cache` immediately followed by `get_from_cache` within the
TTL (lookup time minus store time below 600 seconds) returns the stored
value unchanged. -/
theorem C8_cache_round_trip (fs : FS) (url v : List Char) (now now2 : Int)
    (h : now2 - now < 600) :
    get_from_cache (store_in_cache fs url v now) url now2 = some v := by
  simp [get_from_cache, store_in_cache, fsLookup, h]

/-- C8 witness. -/
theorem C8_witness :
    ((0 : Int) - 0 < 600) ∧
      get_from_cache (store_in_cache [] (("u").data) (("v").data) 0) (("u").data) 0 =
        some (("v").data) :=
  ⟨by decide, C8_cache_round_trip [] _ _ 0 0 (by decide)⟩

/-! ### C4: the response parser -/

theorem findAfter_cons_none_dropLit {lit : List Char} {c : Char} {r : List Char}
    (h : findAfter lit (c :: r) = none) : dropLit lit (c :: r) = none := by
  simp only [findAfter] at h
  cases hd : dropLit lit (c :: r) with
  | some rest => rw [hd] at h; cases h
  | none => rfl

theorem containsLit_cons_false {lit : List Char} {c : Char} {r : List Char}
    (h : containsLit lit (c :: r) = false) :
    dropLit lit (c :: r) = none ∧ containsLit lit r = false := by
  unfold containsLit at h ⊢
  cases hf : findAfter lit (c :: r) with
  | some rest => rw [hf] at h; cases h
  | none =>
    refine ⟨findAfter_cons_none_dropLit hf, ?_⟩
    rw [findAfter_cons_none hf]
    rfl

theorem dropLit_append_of_le {lit A B x : List Char} (hlen : lit.length ≤ A.length)
    (h : dropLit lit (A ++ B) = some x) : ∃ y, dropLit lit A = some y := by
  induction lit generalizing A with
  | nil => exact ⟨A, rfl⟩
  | cons a t ih =>
    cases A with
    | nil => simp at hlen
    | cons d A2 =>
      simp only [cons_append] at h
      by_cases had : a = d
      · subst had
        simp only [dropLit, if_pos rfl] at h ⊢
        exact ih (by simpa using hlen) h
      · simp [dropLit, had] at h

theorem afterFirstDelim_at_delim (body : List Char) :
    afterFirstDelim (http_delim ++ body) = body := by
  simp [afterFirstDelim, http_delim, dropLit]

theorem afterFirstDelim_boundary (header body : List Char)
    (h : containsLit http_delim (header ++ ['\r', '\n', '\r']) = false) :
    afterFirstDelim (header ++ http_delim ++ body) = body := by
  induction header with
  | nil => simpa using afterFirstDelim_at_delim body
  | cons c h2 ih =>
    obtain ⟨hdrop, htail⟩ := containsLit_cons_false (by simpa using h)
    have hnone : dropLit http_delim ((c :: h2) ++ http_delim ++ body) = none := by
      cases hd : dropLit http_delim ((c :: h2) ++ http_delim ++ body) with
      | none => rfl
      | some x =>
        have hassoc : (c :: h2) ++ http_delim ++ body =
            ((c :: h2) ++ ['\r', '\n', '\r']) ++ ('\n' :: body) := by
          simp [http_delim]
        rw [hassoc] at hd
        have hlen : http_delim.length ≤ ((c :: h2) ++ ['\r', '\n', '\r']).length := by
          simp only [http_delim, length_append, length_cons]
          omega
        obtain ⟨y, hy⟩ := dropLit_append_of_le hlen hd
        rw [show (c :: h2) ++ ['\r', '\n', '\r'] = c :: (h2 ++ ['\r', '\n', '\r'])
          from rfl] at hy
        rw [hy] at hdrop
        cases hdrop
    show afterFirstDelim (c :: (h2 ++ http_delim ++ body)) = body
    simp only [afterFirstDelim]
    rw [show c :: (h2 ++ http_delim ++ body) = (c :: h2) ++ http_delim ++ body
      from rfl, hnone]
    exact ih htail

theorem afterFirstDelim_no_delim : ∀ {l : List Char},
    containsLit http_delim l = false → afterFirstDelim l = [] := by
  intro l
  induction l with
  | nil => intro _; rfl
  | cons c r ih =>
    intro h
    obtain ⟨hdrop, htail⟩ := containsLit_cons_false h
    simp only [afterFirstDelim, hdrop]
    exact ih htail

/-- C4 (amended): when the delimiter `\r\n\r\n` has no occurrence starting
inside the header (no occurrence in `header ++ "\r\n\r"`, so the split point
is the intended boundary), the Response Parser returns exactly the body;
and a response containing no delimiter at all yields the empty body rather
than an error.  Without that proviso the claim fails: an occurrence
overlapping the header is split first, see the counterexample. -/
theorem C4_parser_recovers_body (header body : List Char)
    (h : containsLit http_delim (header ++ ['\r', '\n', '\r']) = false) :
    parse_http_response (header ++ http_delim ++ body) = body ∧
      (∀ resp, containsLit http_delim resp = false → parse_http_response resp = []) :=
  ⟨afterFirstDelim_boundary header body h, fun _ hr => afterFirstDelim_no_delim hr⟩

/-- C4 (counterexample): for header `A\r\n` and body `x` the raw response is
`A\r\n\r\n\r\nx`, whose first delimiter occurrence starts inside the header;
the parser returns `\r\nx`, not `x`. -/
theorem C4_counterexample :
    parse_http_response ((("A\r\n").data) ++ http_delim ++ (("x").data)) ≠
      ("x").data := by
  decide

/-- C4 witness. -/
theorem C4_witness :
    (containsLit http_delim ((("HTTP/1.1 200 OK").data) ++ ['\r', '\n', '\r']) = false) ∧
      (parse_http_response ((("HTTP/1.1 200 OK").data) ++ http_delim ++ (("hello").data)) =
          ("hello").data ∧
        (∀ resp, containsLit http_delim resp = false → parse_http_response resp = [])) :=
  ⟨by decide, C4_parser_recovers_body (("HTTP/1.1 200 OK").data) (("hello").data) (by decide)⟩

/-! ### C9: the request bytes -/

/-- C9 (amended): go2web's transport writes exactly the
`GET <path> HTTP/1.1\r\nHost: <host>\r\nUser-Agent: <UA>\r\nConnection:
close\r\n\r\n` bytes of the spec and connects to port 80; the lab5 revision
omits the User-Agent header (it writes the same request without that line)
and also always connects to port 80. -/
theorem C9_request_bytes : (∀ host path : List Char,
    go2web_request host path = spec_request host path ∧
      lab5_request host path = spec_request_noua host path) ∧
    go2web_port = 80 ∧ lab5_port = 80 :=
  ⟨fun _ _ => ⟨rfl, rfl⟩, rfl, rfl⟩

/-- C9 (counterexample): the lab5 transport request for host `h`, path `/`
differs from the claimed wire format — it has no User-Agent header. -/
theorem C9_counterexample :
    lab5_request (("h").data) (("/").data) ≠ spec_request (("h").data) (("/").data) := by
  decide

set_option maxRecDepth 40000 in
/-- C6 (amended): the Search Adapter returns at most 10 results, and they
are the first 10 regex matches in document order; duplicate URLs are NOT
collapsed.  A page with 15 matching anchors yields exactly the first 10
matches (not necessarily 10 unique ones — see the counterexample). -/
theorem C6_search_first_ten_in_order :
    (∀ resp, (search_duckduckgo_links resp).length ≤ 10) ∧
      search_duckduckgo_links page15 = (List.range 10).map urlFor := by
  constructor
  · intro resp
    simp only [search_duckduckgo_links]
    exact length_take_le 10 _
  · decide

set_option maxRecDepth 40000 in
/-- C6 (counterexample): on a page with 15 matching anchors that all carry
the same url, the adapter returns 10 results with all duplicates kept — not
"exactly 10 unique results" and not "duplicate URLs collapsed to one
entry". -/
theorem C6_counterexample :
    (search_duckduckgo_links dupPage).length = 10 ∧
      ¬ (search_duckduckgo_links dupPage).Nodup := by
  exact ⟨by decide, by decide⟩

/-- C2: against a server that always redirects to itself, go2web's
`make_http_request` never reaches a result no matter how many hops it is
allowed — for every recursion budget it is still redirecting (the source has
no hop cap, and no `RedirectLoopError` exists anywhere in either file).
Resolution therefore does not fail with a RedirectLoopError; it recurses
without bound. -/
theorem C2_self_redirect_never_resolves :
    ∀ fuel, make_http_request selfRedirectNet fuel [] 0 (("a").data) (("/").data) =
      none := by
  intro fuel
  induction fuel with
  | zero => rfl
  | succ n ih => exact ih

/-! ### C7: connection failures abort the fetch and leave the cache alone -/

/-- C7: when the cache has nothing usable for the url (no record, or the
falsy empty-string record) and the network oracle fails with message `e`,
`make_http_request` returns the formatted string `"Error: " ++ e` and the
cache is returned unchanged — nothing is stored. -/
theorem C7_network_error_not_cached
    (net : List Char → List Char → Except (List Char) (List Char))
    (fuel : Nat) (fs : FS) (now : Int) (host path e : List Char)
    (hmiss : get_from_cache fs (host ++ path) now = none ∨
      get_from_cache fs (host ++ path) now = some [])
    (herr : net host path = .error e) :
    make_http_request net (fuel + 1) fs now host path =
      some ((("Error: ").data) ++ e, fs) := by
  rcases hmiss with h | h <;> simp [make_http_request, h, herr]

/-- C7 witness. -/
theorem C7_witness :
    (get_from_cache [] ((("h").data) ++ (("/").data)) 0 = none ∨
      get_from_cache [] ((("h").data) ++ (("/").data)) 0 = some []) ∧
      make_http_request (fun _ _ => .error (("boom").data)) 1 [] 0
          (("h").data) (("/").data) =
        some ((("Error: ").data) ++ (("boom").data), []) :=
  ⟨Or.inl (by decide),
    C7_network_error_not_cached _ 0 [] 0 _ _ _ (Or.inl (by decide)) rfl⟩

/-! ### C10: a redirected fetch caches only under the final url -/

/-- C10: when the fetch of `hostA`/`pathA` misses the cache and is answered
with a redirect whose `Location` is `locB`, and the follow-up fetch of the
parsed `locB` misses the cache and succeeds without further redirect, the
result is the cleaned body of the second response, cached under the key
derived from `locB` only; the record of `hostA ++ pathA` (any other key) is
exactly what it was before, so a later fetch of A must contact the network
again. -/
theorem C10_redirect_caches_final_url_only
    (net : List Char → List Char → Except (List Char) (List Char))
    (fs : FS) (now : Int) (hostA pathA respA locB respB : List Char)
    (hmissA : get_from_cache fs (hostA ++ pathA) now = none)
    (hnetA : net hostA pathA = .ok respA)
    (hred : isRedirectResp respA = true)
    (hloc : findLocation respA = some locB)
    (hmissB : get_from_cache fs (urlNetloc locB ++ urlPathOf locB) now = none)
    (hnetB : net (urlNetloc locB) (urlPathOf locB) = .ok respB)
    (hnored : isRedirectResp respB = false) :
    make_http_request net 2 fs now hostA pathA =
      some (clean_html (afterFirstDelim respB),
        store_in_cache fs (urlNetloc locB ++ urlPathOf locB)
          (clean_html (afterFirstDelim respB)) now) ∧
      (hostA ++ pathA ≠ urlNetloc locB ++ urlPathOf locB →
        fsLookup (store_in_cache fs (urlNetloc locB ++ urlPathOf locB)
            (clean_html (afterFirstDelim respB)) now) (hostA ++ pathA) =
          fsLookup fs (hostA ++ pathA)) := by
  constructor
  · show make_http_request net (1 + 1) fs now hostA pathA = _
    simp [make_http_request, hmissA, hnetA, hred, hloc, hmissB, hnetB, hnored,
      go2webBody]
  · intro hne
    simp [store_in_cache, fsLookup, Ne.symm hne]

/-- C10 witness. -/
theorem C10_witness :
    get_from_cache [] ((("a").data) ++ (("/").data)) 0 = none ∧
      (make_http_request net0 2 [] 0 (("a").data) (("/").data) =
        some (clean_html (afterFirstDelim respB0),
          store_in_cache [] (urlNetloc (("http://b/x").data) ++
              urlPathOf (("http://b/x").data))
            (clean_html (afterFirstDelim respB0)) 0) ∧
      ((("a").data) ++ (("/").data) ≠ urlNetloc (("http://b/x").data) ++
          urlPathOf (("http://b/x").data) →
        fsLookup (store_in_cache [] (urlNetloc (("http://b/x").data) ++
              urlPathOf (("http://b/x").data))
            (clean_html (afterFirstDelim respB0)) 0)
          ((("a").data) ++ (("/").data)) =
          fsLookup [] ((("a").data) ++ (("/").data)))) :=
  ⟨by decide,
    C10_redirect_caches_final_url_only net0 [] 0 (("a").data) (("/").data)
      respA0 (("http://b/x").data) respB0 (by decide) rfl (by decide) (by decide)
      (by decide) rfl (by decide)⟩

theorem noTwo_nil {a : Char} : noTwo a [] = true := rfl

theorem noTwo_single {a c : Char} : noTwo a [c] = true := rfl

theorem noTwo_cons_cons {a c d : Char} {r : List Char} :
    noTwo a (c :: d :: r) = if c = a ∧ d = a then false else noTwo a (d :: r) := rfl

theorem noTwo_tail {a c : Char} {r : List Char} (h : noTwo a (c :: r) = true) :
    noTwo a r = true := by
  cases r with
  | nil => rfl
  | cons d r2 =>
    rw [noTwo_cons_cons] at h
    by_cases hcd : c = a ∧ d = a
    · rw [if_pos hcd] at h; cases h
    · rwa [if_neg hcd] at h

theorem noTwo_cons_of_ne {a c : Char} {r : List Char} (hc : c ≠ a)
    (h : noTwo a r = true) : noTwo a (c :: r) = true := by
  cases r with
  | nil => rfl
  | cons d r2 =>
    rw [noTwo_cons_cons, if_neg (fun hx : c = a ∧ d = a => hc hx.1)]
    exact h

theorem noTwo_cons_headNot {a : Char} {r : List Char}
    (hh : headNotP (fun c => c == a) r = true) (h : noTwo a r = true) :
    noTwo a (a :: r) = true := by
  cases r with
  | nil => rfl
  | cons d r2 =>
    have hd : d ≠ a := by
      intro hx
      subst hx
      simp [headNotP] at hh
    rw [noTwo_cons_cons, if_neg (fun hx : a = a ∧ d = a => hd hx.2)]
    exact h

theorem noTwo_cons_cons_self {a : Char} {r : List Char} :
    noTwo a (a :: a :: r) = false := by
  rw [noTwo_cons_cons, if_pos ⟨rfl, rfl⟩]

theorem noTwo_of_not_mem {a : Char} {l : List Char} (h : a ∉ l) :
    noTwo a l = true := by
  induction l with
  | nil => rfl
  | cons c r ih =>
    have hc : c ≠ a := fun hx => h (hx ▸ mem_cons_self c r)
    exact noTwo_cons_of_ne hc (ih (fun hx => h (mem_cons_of_mem c hx)))

theorem noTwo_append_right {a : Char} {u v : List Char}
    (h : noTwo a (u ++ v) = true) : noTwo a v = true := by
  induction u with
  | nil => exact h
  | cons c u2 ih => exact ih (noTwo_tail h)

theorem noTwo_append_left {a : Char} {u v : List Char}
    (h : noTwo a (u ++ v) = true) : noTwo a u = true := by
  induction u with
  | nil => rfl
  | cons c u2 ih =>
    cases u2 with
    | nil => rfl
    | cons d u3 =>
      simp only [cons_append] at h
      rw [noTwo_cons_cons] at h ⊢
      by_cases hcd : c = a ∧ d = a
      · rw [if_pos hcd] at h; cases h
      · rw [if_neg hcd] at h ⊢
        exact ih h

theorem noTwo_infixOf {a : Char} {y l : List Char} (hy : y <:+: l)
    (h : noTwo a l = true) : noTwo a y = true := by
  obtain ⟨u, v, huv⟩ := hy
  subst huv
  exact noTwo_append_left (noTwo_append_right (a := a) (u := u) (by simpa using h))

theorem noTwo_append_of_headNot {a : Char} {x y : List Char}
    (h1 : noTwo a x = true) (h2 : noTwo a y = true)
    (h3 : headNotP (fun c => c == a) y = true) : noTwo a (x ++ y) = true := by
  induction x with
  | nil => exact h2
  | cons c x2 ih =>
    cases x2 with
    | nil =>
      simp only [cons_append, nil_append]
      by_cases hc : c = a
      · subst hc
        exact noTwo_cons_headNot h3 h2
      · exact noTwo_cons_of_ne hc h2
    | cons d x3 =>
      have hcond : ¬ (c = a ∧ d = a) := by
        intro hx
        rw [noTwo_cons_cons, if_pos hx] at h1
        cases h1
      have h4 := ih (noTwo_tail h1)
      simp only [cons_append] at h4 ⊢
      rw [noTwo_cons_cons, if_neg hcond]
      exact h4

theorem noTwo_append_of_not_mem {a : Char} {x y : List Char} (h1 : a ∉ x)
    (h2 : noTwo a y = true) : noTwo a (x ++ y) = true := by
  induction x with
  | nil => exact h2
  | cons c x2 ih =>
    have hc : c ≠ a := fun hx => h1 (hx ▸ mem_cons_self c x2)
    exact noTwo_cons_of_ne hc (ih (fun hx => h1 (mem_cons_of_mem c hx)))

theorem headNotP_dropWhile (p : Char → Bool) (l : List Char) :
    headNotP p (l.dropWhile p) = true := by
  induction l with
  | nil => rfl
  | cons c r ih =>
    by_cases hc : p c
    · simpa [dropWhile_cons, hc] using ih
    · simp [dropWhile_cons, hc, headNotP]

theorem dropWhile_eq_self_of_headNot {p : Char → Bool} {l : List Char}
    (h : headNotP p l = true) : l.dropWhile p = l := by
  cases l with
  | nil => rfl
  | cons c r =>
    simp only [headNotP, Bool.not_eq_eq_eq_not, Bool.not_true] at h
    simp [dropWhile_cons, h]

theorem headNotP_of_dropWhile_eq_self {p : Char → Bool} {l : List Char}
    (h : l.dropWhile p = l) : headNotP p l = true := by
  cases l with
  | nil => rfl
  | cons c r =>
    by_cases hc : p c
    · exfalso
      rw [dropWhile_cons, if_pos hc] at h
      have := congrArg length h
      have h2 := (dropWhile_sublist (l := r) p).length_le
      simp only [length_cons] at this
      omega
    · simp [headNotP, hc]

theorem headNotP_prefixOf {p : Char → Bool} {x A : List Char} (hx : x <+: A)
    (h : headNotP p A = true) : headNotP p x = true := by
  cases x with
  | nil => rfl
  | cons c r =>
    obtain ⟨t, ht⟩ := hx
    subst ht
    simpa [headNotP] using h

theorem headNotP_append_of_ne_nil {p : Char → Bool} {x z : List Char} (hx : x ≠ [])
    (h : headNotP p x = true) : headNotP p (x ++ z) = true := by
  cases x with
  | nil => exact absurd rfl hx
  | cons c r => simpa [headNotP] using h

theorem dropEndWhile_eq_self {p : Char → Bool} {l : List Char}
    (h : headNotP p l.reverse = true) : dropEndWhile p l = l := by
  unfold dropEndWhile
  rw [dropWhile_eq_self_of_headNot h, reverse_reverse]

theorem headNotP_reverse_dropEndWhile (p : Char → Bool) (l : List Char) :
    headNotP p (dropEndWhile p l).reverse = true := by
  unfold dropEndWhile
  rw [reverse_reverse]
  exact headNotP_dropWhile p l.reverse

theorem dropEndWhile_idem (p : Char → Bool) (l : List Char) :
    dropEndWhile p (dropEndWhile p l) = dropEndWhile p l :=
  dropEndWhile_eq_self (headNotP_reverse_dropEndWhile p l)

theorem headNotP_stripWS (l : List Char) : headNotP pySpace (stripWS l) = true :=
  headNotP_prefixOf (prefix_dropEndWhile pySpace _) (headNotP_dropWhile pySpace l)

theorem stripWS_idem (l : List Char) : stripWS (stripWS l) = stripWS l := by
  have h1 : (stripWS l).dropWhile pySpace = stripWS l :=
    dropWhile_eq_self_of_headNot (headNotP_stripWS l)
  show dropEndWhile pySpace ((stripWS l).dropWhile pySpace) = stripWS l
  rw [h1]
  exact dropEndWhile_idem pySpace _

theorem infixOf_stripWS (l : List Char) : stripWS l <:+: l := by
  obtain ⟨u, hu⟩ := dropWhile_suffix (l := l) pySpace
  obtain ⟨v, hv⟩ := prefix_dropEndWhile pySpace (l.dropWhile pySpace)
  refine ⟨u, v, ?_⟩
  rw [append_assoc, show stripWS l ++ v = l.dropWhile pySpace from hv]
  exact hu

/-! ### C5: stages are the identity when their trigger character is absent -/

theorem mem_of_dropLit_lit {lit t r : List Char} (h : dropLit lit t = some r)
    {c : Char} (hc : c ∈ lit) : c ∈ t := by
  rw [dropLit_eq h]
  exact mem_append_left r hc

theorem subAll_eq_self_of_not_mem (m : List Char → Option (List Char))
    (rep : List Char) (bad : Char) (hm : ∀ t r, m t = some r → bad ∈ t)
    {l : List Char} (hl : bad ∉ l) : subAll m rep l = l := by
  apply subF_eq_self
  intro t ht
  cases hmt : m t with
  | none => rfl
  | some r => exact absurd (ht.subset (hm t r hmt)) hl

theorem scriptM_mem {t r : List Char} (h : scriptM t = some r) : '<' ∈ t := by
  unfold scriptM at h
  split at h
  · cases h
  · rename_i r1 h1
    exact mem_of_dropLit_lit h1 (by decide)

theorem styleM_mem {t r : List Char} (h : styleM t = some r) : '<' ∈ t := by
  unfold styleM at h
  split at h
  · cases h
  · rename_i r1 h1
    exact mem_of_dropLit_lit h1 (by decide)

theorem nbspM_mem {t r : List Char} (h : nbspM t = some r) : '&' ∈ t :=
  mem_of_dropLit_lit h (by decide)

theorem ampM_mem {t r : List Char} (h : ampM t = some r) : '&' ∈ t :=
  mem_of_dropLit_lit h (by decide)

theorem ltM_mem {t r : List Char} (h : ltM t = some r) : '&' ∈ t :=
  mem_of_dropLit_lit h (by decide)

theorem gtM_mem {t r : List Char} (h : gtM t = some r) : '&' ∈ t :=
  mem_of_dropLit_lit h (by decide)

theorem quotM_mem {t r : List Char} (h : quotM t = some r) : '&' ∈ t :=
  mem_of_dropLit_lit h (by decide)

theorem hexRefM_mem {t r : List Char} (h : hexRefM t = some r) : '&' ∈ t := by
  unfold hexRefM at h
  split at h
  · cases h
  · rename_i r1 h1
    exact mem_of_dropLit_lit h1 (by decide)

theorem decRefM_mem {t r : List Char} (h : decRefM t = some r) : '&' ∈ t := by
  unfold decRefM at h
  split at h
  · cases h
  · rename_i r1 h1
    exact mem_of_dropLit_lit h1 (by decide)

theorem brM_mem {t r : List Char} (h : brM t = some r) : '<' ∈ t := by
  unfold brM at h
  split at h
  · cases h
  · rename_i r1 h1
    exact mem_of_dropLit_lit h1 (by decide)

theorem closePM_mem {t r : List Char} (h : closePM t = some r) : '<' ∈ t :=
  mem_of_dropLit_lit h (by decide)

theorem closeDivM_mem {t r : List Char} (h : closeDivM t = some r) : '<' ∈ t :=
  mem_of_dropLit_lit h (by decide)

theorem closeHM_mem {t r : List Char} (h : closeHM t = some r) : '<' ∈ t := by
  unfold closeHM at h
  split at h
  · cases h
  · rename_i r1 h1
    exact mem_of_dropLit_lit h1 (by decide)

theorem closeTrM_mem {t r : List Char} (h : closeTrM t = some r) : '<' ∈ t :=
  mem_of_dropLit_lit h (by decide)

theorem closeLiM_mem {t r : List Char} (h : closeLiM t = some r) : '<' ∈ t :=
  mem_of_dropLit_lit h (by decide)

theorem blockOpenM_mem {t r : List Char} (h : blockOpenM t = some r) : '<' ∈ t := by
  unfold blockOpenM at h
  split at h
  · rename_i cs
    exact mem_cons_self '<' cs
  · cases h

theorem tagM_mem {t r : List Char} (h : tagM t = some r) : '<' ∈ t := by
  obtain ⟨cs, rfl, _⟩ := tagM_eq_some h
  exact mem_cons_self '<' cs

theorem numGtM_mem {t r : List Char} (h : numGtM t = some r) : '>' ∈ t := by
  cases t with
  | nil => simp [numGtM] at h
  | cons c cs =>
    simp only [numGtM] at h
    split at h
    · split at h
      · rename_i rest heq
        have h1 : '>' ∈ (cs.dropWhile Char.isDigit).dropWhile pySpace := by
          rw [heq]; exact mem_cons_self '>' rest
        exact mem_cons_of_mem c
          (((dropWhile_suffix pySpace).subset h1) |> (dropWhile_suffix Char.isDigit).subset)
      · cases h
    · cases h

theorem minProdM_mem {t r : List Char} (h : minProdM t = some r) : '&' ∈ t := by
  unfold minProdM at h
  split at h
  · cases h
  · rename_i r1 h1
    split at h
    · cases h
    · rename_i r2 h2
      have ha : '&' ∈ r1.dropWhile pySpace := mem_of_dropLit_lit h2 (by decide)
      have hb : '&' ∈ r1 := (dropWhile_suffix pySpace).subset ha
      rw [dropLit_eq h1]
      exact mem_append_right _ hb

/-! ### C5: the space-collapsing stage on already-collapsed input -/

theorem spaceM_eq_some {l x : List Char} (h : spaceM l = some x) :
    ∃ r, l = ' ' :: r ∧ x = r.dropWhile (fun c => c == ' ') := by
  unfold spaceM at h
  split at h
  · rename_i r
    simp only [Option.some.injEq] at h
    exact ⟨r, rfl, h.symm⟩
  · cases h

theorem tabM_mem {t r : List Char} (h : tabM t = some r) : '\t' ∈ t := by
  unfold tabM at h
  split at h
  · rename_i cs
    exact mem_cons_self '\t' cs
  · cases h

theorem subF_spaceM_head {n : Nat} {l : List Char}
    (h : headNotP (fun c => c == ' ') l = true) :
    headNotP (fun c => c == ' ') (subF spaceM (" ".data) n l) = true := by
  cases n with
  | zero => cases l <;> simpa [subF] using h
  | succ n =>
    cases l with
    | nil => rfl
    | cons c r =>
      have hc : c ≠ ' ' := by
        simp only [headNotP, Bool.not_eq_eq_eq_not, Bool.not_true,
          beq_eq_false_iff_ne, ne_eq] at h
        exact h
      simp only [subF]
      cases hmc : spaceM (c :: r) with
      | some x =>
        obtain ⟨r2, heq, _⟩ := spaceM_eq_some hmc
        injection heq with h1 h2
        exact absurd h1 hc
      | none => simp [headNotP, hc]

theorem subF_spaceM_noTwo : ∀ n l, l.length ≤ n →
    noTwo ' ' (subF spaceM (" ".data) n l) = true := by
  intro n
  induction n with
  | zero =>
    intro l hl
    rw [length_eq_zero.mp (Nat.le_zero.mp hl)]
    rfl
  | succ n ih =>
    intro l hl
    cases l with
    | nil => rfl
    | cons c r =>
      simp only [subF]
      cases hmc : spaceM (c :: r) with
      | some x =>
        obtain ⟨r2, heq, hx⟩ := spaceM_eq_some hmc
        injection heq with h1 h2
        subst h1 h2 hx
        show noTwo ' ' (' ' :: subF spaceM (" ".data) n (r.dropWhile (fun c => c == ' '))) = true
        apply noTwo_cons_headNot
        · exact subF_spaceM_head (headNotP_dropWhile _ r)
        · apply ih
          have := (dropWhile_sublist (l := r) (fun c => c == ' ')).length_le
          simp only [length_cons] at hl
          omega
      | none =>
        by_cases hc : c = ' '
        · subst hc
          simp [spaceM] at hmc
        · apply noTwo_cons_of_ne hc
          apply ih
          simp only [length_cons] at hl
          omega

theorem subAll_spaceM_eq_self {l : List Char} (h : noTwo ' ' l = true) :
    subAll spaceM (" ".data) l = l := by
  unfold subAll
  generalize l.length = n
  induction n generalizing l with
  | zero => cases l <;> simp [subF]
  | succ n ih =>
    cases l with
    | nil => simp [subF]
    | cons c r =>
      simp only [subF]
      cases hmc : spaceM (c :: r) with
      | some x =>
        obtain ⟨r2, heq, hx⟩ := spaceM_eq_some hmc
        injection heq with h1 h2
        subst h1 h2 hx
        have hr : r.dropWhile (fun c => c == ' ') = r := by
          apply dropWhile_eq_self_of_headNot
          cases r with
          | nil => rfl
          | cons d r3 =>
            have hd : d ≠ ' ' := by
              intro hx
              subst hx
              rw [noTwo_cons_cons_self] at h
              cases h
            simp [headNotP, hd]
        rw [hr]
        show ' ' :: subF spaceM (" ".data) n r = ' ' :: r
        rw [ih (noTwo_tail h)]
      | none =>
        rw [ih (noTwo_tail h)]

theorem nlM_none_of_noTwo {l : List Char} (h : noTwo '\n' l = true) :
    ∀ t, t <:+ l → nlM t = none := by
  intro t ht
  cases hmt : nlM t with
  | none => rfl
  | some r =>
    obtain ⟨cs, rfl, _⟩ := nlM_eq_some hmt
    obtain ⟨u, hu⟩ := ht
    rw [← hu] at h
    have h2 := noTwo_append_right (u := u) h
    rw [noTwo_cons_cons_self] at h2
    cases h2

theorem subAll_nlM_eq_self {l : List Char} (h : noTwo '\n' l = true) :
    subAll nlM ("\n\n".data) l = l :=
  subF_eq_self (nlM_none_of_noTwo h) _

/-! ### C5: structure of the line-processing pass -/

theorem joinNL_cons_cons (a b : List Char) (t : List (List Char)) :
    joinNL (a :: b :: t) = a ++ '\n' :: joinNL (b :: t) := rfl

theorem joinNL_ne_nil {a : List Char} (ha : a ≠ []) (t : List (List Char)) :
    joinNL (a :: t) ≠ [] := by
  cases t with
  | nil => exact ha
  | cons b t2 =>
    rw [joinNL_cons_cons]
    cases a with
    | nil => exact absurd rfl ha
    | cons c r => simp

theorem splitNLp_cons_nl (r : List Char) :
    splitNLp ('\n' :: r) = ([], (splitNLp r).1 :: (splitNLp r).2) := by
  simp [splitNLp]

theorem splitNLp_cons_ne {c : Char} (hc : c ≠ '\n') (r : List Char) :
    splitNLp (c :: r) = (c :: (splitNLp r).1, (splitNLp r).2) := by
  simp [splitNLp, hc]

theorem splitNLp_no_nl : ∀ l : List Char,
    '\n' ∉ (splitNLp l).1 ∧ ∀ y ∈ (splitNLp l).2, '\n' ∉ y := by
  intro l
  induction l with
  | nil => exact ⟨by simp [splitNLp], by simp [splitNLp]⟩
  | cons c r ih =>
    by_cases hc : c = '\n'
    · subst hc
      rw [splitNLp_cons_nl]
      refine ⟨by simp, ?_⟩
      intro y hy
      rcases mem_cons.mp hy with h | h
      · exact h ▸ ih.1
      · exact ih.2 y h
    · rw [splitNLp_cons_ne hc]
      refine ⟨?_, ih.2⟩
      intro hmem
      rcases mem_cons.mp hmem with h | h
      · exact hc h.symm
      · exact ih.1 h

theorem splitNLp_chunks : ∀ l : List Char,
    ((splitNLp l).1 <+: l) ∧ ∀ y ∈ (splitNLp l).2, y <:+: l := by
  intro l
  induction l with
  | nil => exact ⟨by simp [splitNLp], by simp [splitNLp]⟩
  | cons c r ih =>
    by_cases hc : c = '\n'
    · subst hc
      rw [splitNLp_cons_nl]
      refine ⟨by simp, ?_⟩
      intro y hy
      rcases mem_cons.mp hy with h | h
      · subst h
        obtain ⟨t, ht⟩ := ih.1
        exact ⟨['\n'], t, by simpa using ht⟩
      · exact (ih.2 y h).trans (infix_cons (infix_refl r))
    · rw [splitNLp_cons_ne hc]
      constructor
      · obtain ⟨t, ht⟩ := ih.1
        exact ⟨t, by simpa using ht⟩
      · intro y hy
        exact (ih.2 y hy).trans (infix_cons (infix_refl r))

theorem joinNL_splitNL : ∀ l : List Char, joinNL (splitNL l) = l := by
  intro l
  induction l with
  | nil => rfl
  | cons c r ih =>
    unfold splitNL at ih ⊢
    by_cases hc : c = '\n'
    · subst hc
      rw [splitNLp_cons_nl]
      show joinNL ([] :: (splitNLp r).1 :: (splitNLp r).2) = _
      rw [joinNL_cons_cons, nil_append, ih]
    · rw [splitNLp_cons_ne hc]
      show joinNL ((c :: (splitNLp r).1) :: (splitNLp r).2) = _
      cases hsnd : (splitNLp r).2 with
      | nil =>
        rw [hsnd] at ih
        show c :: (splitNLp r).1 = c :: r
        rw [show joinNL [(splitNLp r).1] = (splitNLp r).1 from rfl] at ih
        rw [ih]
      | cons q t =>
        rw [hsnd] at ih
        rw [joinNL_cons_cons, cons_append, ← joinNL_cons_cons, ih]

theorem splitNLp_of_no_nl {a : List Char} (ha : '\n' ∉ a) : splitNLp a = (a, []) := by
  induction a with
  | nil => rfl
  | cons c r ih =>
    have hc : c ≠ '\n' := fun hx => ha (hx ▸ mem_cons_self c r)
    rw [splitNLp_cons_ne hc, ih (fun hx => ha (mem_cons_of_mem c hx))]

theorem splitNLp_append_nl {a : List Char} (ha : '\n' ∉ a) (t : List Char) :
    splitNLp (a ++ '\n' :: t) = (a, (splitNLp t).1 :: (splitNLp t).2) := by
  induction a with
  | nil => simpa using splitNLp_cons_nl t
  | cons c r ih =>
    have hc : c ≠ '\n' := fun hx => ha (hx ▸ mem_cons_self c r)
    rw [cons_append, splitNLp_cons_ne hc, ih (fun hx => ha (mem_cons_of_mem c hx))]

theorem splitNL_joinNL : ∀ ls : List (List Char), ls ≠ [] →
    (∀ x ∈ ls, '\n' ∉ x) → splitNL (joinNL ls) = ls := by
  intro ls
  induction ls with
  | nil => intro h; exact absurd rfl h
  | cons a t ih =>
    intro _ hnl
    cases t with
    | nil =>
      show splitNL (joinNL [a]) = [a]
      unfold splitNL
      rw [show joinNL [a] = a from rfl, splitNLp_of_no_nl (hnl a (mem_cons_self _ _))]
    | cons b t2 =>
      rw [joinNL_cons_cons]
      unfold splitNL
      rw [splitNLp_append_nl (hnl a (mem_cons_self _ _))]
      have := ih (by simp) (fun x hx => hnl x (mem_cons_of_mem a hx))
      unfold splitNL at this
      rw [show ((splitNLp (joinNL (b :: t2))).1 ::
        (splitNLp (joinNL (b :: t2))).2) = b :: t2 from this]

theorem mem_joinNL : ∀ (ls : List (List Char)) (x : Char), x ∈ joinNL ls →
    (∃ y ∈ ls, x ∈ y) ∨ x = '\n' := by
  intro ls
  induction ls with
  | nil => intro x hx; simp [joinNL] at hx
  | cons a t ih =>
    intro x hx
    cases t with
    | nil => exact Or.inl ⟨a, mem_cons_self _ _, hx⟩
    | cons b t2 =>
      rw [joinNL_cons_cons] at hx
      rcases mem_append.mp hx with h | h
      · exact Or.inl ⟨a, mem_cons_self _ _, h⟩
      · rcases mem_cons.mp h with h2 | h2
        · exact Or.inr h2
        · rcases ih x h2 with ⟨y, hy, hxy⟩ | h3
          · exact Or.inl ⟨y, mem_cons_of_mem a hy, hxy⟩
          · exact Or.inr h3

theorem headNotP_beq_of_not_mem {a : Char} {l : List Char} (h : a ∉ l) :
    headNotP (fun c => c == a) l = true := by
  cases l with
  | nil => rfl
  | cons c r =>
    have : c ≠ a := fun hx => h (hx ▸ mem_cons_self c r)
    simp [headNotP, this]

theorem headNotP_joinNL {p : Char → Bool} {ls : List (List Char)}
    (h : ∀ x ∈ ls, x ≠ [] ∧ headNotP p x = true) :
    headNotP p (joinNL ls) = true := by
  cases ls with
  | nil => rfl
  | cons a t =>
    cases t with
    | nil => exact (h a (mem_cons_self _ _)).2
    | cons b t2 =>
      rw [joinNL_cons_cons]
      exact headNotP_append_of_ne_nil (h a (mem_cons_self _ _)).1
        (h a (mem_cons_self _ _)).2

theorem joinNL_noTwo_nl {ls : List (List Char)}
    (h : ∀ x ∈ ls, x ≠ [] ∧ '\n' ∉ x) : noTwo '\n' (joinNL ls) = true := by
  induction ls with
  | nil => rfl
  | cons a t ih =>
    cases t with
    | nil => exact noTwo_of_not_mem (h a (mem_cons_self _ _)).2
    | cons b t2 =>
      rw [joinNL_cons_cons]
      apply noTwo_append_of_not_mem (h a (mem_cons_self _ _)).2
      have hJ := ih (fun x hx => h x (mem_cons_of_mem a hx))
      apply noTwo_cons_headNot ?_ hJ
      apply headNotP_joinNL
      intro x hx
      exact ⟨(h x (mem_cons_of_mem a hx)).1,
        headNotP_beq_of_not_mem (h x (mem_cons_of_mem a hx)).2⟩

theorem joinNL_noTwo_of_ne_nl {a : Char} (ha : a ≠ '\n') {ls : List (List Char)}
    (h : ∀ x ∈ ls, noTwo a x = true) : noTwo a (joinNL ls) = true := by
  induction ls with
  | nil => rfl
  | cons x t ih =>
    cases t with
    | nil => exact h x (mem_cons_self _ _)
    | cons b t2 =>
      rw [joinNL_cons_cons]
      apply noTwo_append_of_headNot (h x (mem_cons_self _ _))
      · exact noTwo_cons_of_ne (fun hx => ha hx.symm)
          (ih (fun y hy => h y (mem_cons_of_mem x hy)))
      · have hne : ('\n' == a) = false := by
          simp only [beq_eq_false_iff_ne, ne_eq]
          exact fun hx => ha hx.symm
        simp [headNotP, hne]

theorem dropEndWhile_append {p : Char → Bool} {x z : List Char} (hz : z ≠ [])
    (hstable : dropEndWhile p z = z) : dropEndWhile p (x ++ z) = x ++ z := by
  have h1 : z.reverse.dropWhile p = z.reverse := by
    have h2 := congrArg List.reverse hstable
    rwa [dropEndWhile, reverse_reverse] at h2
  unfold dropEndWhile
  rw [reverse_append, dropWhile_append, h1]
  rw [if_neg (by simpa using hz)]
  rw [← reverse_append, reverse_reverse]

theorem dropEndWhile_joinNL {ls : List (List Char)}
    (h : ∀ x ∈ ls, x ≠ [] ∧ dropEndWhile pySpace x = x) :
    dropEndWhile pySpace (joinNL ls) = joinNL ls := by
  induction ls with
  | nil => rfl
  | cons a t ih =>
    cases t with
    | nil => exact (h a (mem_cons_self _ _)).2
    | cons b t2 =>
      rw [joinNL_cons_cons]
      have hJ : dropEndWhile pySpace (joinNL (b :: t2)) = joinNL (b :: t2) :=
        ih (fun x hx => h x (mem_cons_of_mem a hx))
      have hJne : joinNL (b :: t2) ≠ [] :=
        joinNL_ne_nil (h b (mem_cons_of_mem a (mem_cons_self _ _))).1 t2
      have hz : dropEndWhile pySpace ('\n' :: joinNL (b :: t2)) =
          '\n' :: joinNL (b :: t2) := by
        apply dropEndWhile_eq_self
        rw [reverse_cons]
        apply headNotP_append_of_ne_nil (by simpa using hJne)
        apply headNotP_of_dropWhile_eq_self
        have h2 := congrArg List.reverse hJ
        rwa [dropEndWhile, reverse_reverse] at h2
      exact dropEndWhile_append (by simp) hz

/-! ### C5: assembly -/

theorem keepLine_ne_nil {x : List Char} (h : keepLine x = true) : x ≠ [] := by
  intro hx
  subst hx
  simp [keepLine] at h

theorem map_eq_self_of {f : List Char → List Char} {ls : List (List Char)}
    (h : ∀ x ∈ ls, f x = x) : ls.map f = ls := by
  induction ls with
  | nil => rfl
  | cons a t ih =>
    rw [map_cons, h a (mem_cons_self _ _), ih (fun x hx => h x (mem_cons_of_mem a hx))]

theorem infix_subset {y l : List Char} (h : y <:+: l) : ∀ c ∈ y, c ∈ l := by
  obtain ⟨u, v, rfl⟩ := h
  intro c hc
  simp [hc]

/-- On inputs with no `&` and no `<`, the entity and tag stages of
`clean_html` are all the identity, so only whitespace and line processing
remain. -/
theorem clean_html_plain {l : List Char} (hamp : '&' ∉ l) (hlt : '<' ∉ l) :
    clean_html l =
      stripWS (subAll minProdM [] (subAll numGtM []
        (subAll nlM ("\n\n".data) (processLines
          (subAll tabM (" ".data) (subAll spaceM (" ".data) l)))))) := by
  simp only [clean_html]
  rw [subAll_eq_self_of_not_mem scriptM (" ".data) '<' (fun t r h => scriptM_mem h) hlt,
    subAll_eq_self_of_not_mem styleM (" ".data) '<' (fun t r h => styleM_mem h) hlt,
    subAll_eq_self_of_not_mem nbspM (" ".data) '&' (fun t r h => nbspM_mem h) hamp,
    subAll_eq_self_of_not_mem ampM ("&".data) '&' (fun t r h => ampM_mem h) hamp,
    subAll_eq_self_of_not_mem ltM ("<".data) '&' (fun t r h => ltM_mem h) hamp,
    subAll_eq_self_of_not_mem gtM (">".data) '&' (fun t r h => gtM_mem h) hamp,
    subAll_eq_self_of_not_mem quotM ("\"".data) '&' (fun t r h => quotM_mem h) hamp,
    subAll_eq_self_of_not_mem hexRefM [] '&' (fun t r h => hexRefM_mem h) hamp,
    subAll_eq_self_of_not_mem decRefM [] '&' (fun t r h => decRefM_mem h) hamp,
    subAll_eq_self_of_not_mem brM ("\n".data) '<' (fun t r h => brM_mem h) hlt,
    subAll_eq_self_of_not_mem closePM ("\n\n".data) '<' (fun t r h => closePM_mem h) hlt,
    subAll_eq_self_of_not_mem closeDivM ("\n".data) '<' (fun t r h => closeDivM_mem h) hlt,
    subAll_eq_self_of_not_mem closeHM ("\n\n".data) '<' (fun t r h => closeHM_mem h) hlt,
    subAll_eq_self_of_not_mem closeTrM ("\n".data) '<' (fun t r h => closeTrM_mem h) hlt,
    subAll_eq_self_of_not_mem closeLiM ("\n".data) '<' (fun t r h => closeLiM_mem h) hlt,
    subAll_eq_self_of_not_mem blockOpenM ("\n".data) '<' (fun t r h => blockOpenM_mem h) hlt,
    subAll_eq_self_of_not_mem tagM [] '<' (fun t r h => tagM_mem h) hlt]

/-- Core fixed-point lemma: if `l2` (think: the space-collapsed text) has no
`&`, `<`, `>`, tab and no two adjacent spaces, then the stages after line
processing do not change `processLines l2`, and `clean_html` leaves
`processLines l2` unchanged. -/
theorem clean_html_fixed_on_processLines {l2 : List Char}
    (hamp : '&' ∉ l2) (hlt : '<' ∉ l2) (hgt : '>' ∉ l2) (htab : '\t' ∉ l2)
    (hsp : noTwo ' ' l2 = true) :
    stripWS (subAll minProdM [] (subAll numGtM []
      (subAll nlM ("\n\n".data) (processLines l2)))) = processLines l2 ∧
    clean_html (processLines l2) = processLines l2 := by
  have hlines : ∀ x ∈ ((splitNL l2).map stripWS).filter keepLine,
      x ≠ [] ∧ '\n' ∉ x ∧ noTwo ' ' x = true ∧ stripWS x = x ∧
        headNotP pySpace x = true ∧ dropEndWhile pySpace x = x ∧
        keepLine x = true ∧ ∀ c ∈ x, c ∈ l2 := by
    intro x hx
    have hkeep := (mem_filter.mp hx).2
    obtain ⟨y, hy, hxy⟩ := mem_map.mp (mem_filter.mp hx).1
    unfold splitNL at hy
    have hyinf : y <:+: l2 := by
      rcases mem_cons.mp hy with h | h
      · subst h
        obtain ⟨t, ht⟩ := (splitNLp_chunks l2).1
        exact ⟨[], t, by simpa using ht⟩
      · exact (splitNLp_chunks l2).2 y h
    have hynl : '\n' ∉ y := by
      rcases mem_cons.mp hy with h | h
      · subst h; exact (splitNLp_no_nl l2).1
      · exact (splitNLp_no_nl l2).2 y h
    subst hxy
    refine ⟨keepLine_ne_nil hkeep, ?_, ?_, stripWS_idem y, headNotP_stripWS y,
      dropEndWhile_idem pySpace (y.dropWhile pySpace), hkeep, ?_⟩
    · exact fun hc => hynl ((stripWS_sublist y).subset hc)
    · exact noTwo_infixOf ((infixOf_stripWS y).trans hyinf) hsp
    · exact fun c hc => infix_subset hyinf c ((stripWS_sublist y).subset hc)
  by_cases hnil : ((splitNL l2).map stripWS).filter keepLine = []
  · have hP : processLines l2 = [] := by
      unfold processLines
      rw [hnil]
      rfl
    rw [hP]
    exact ⟨rfl, rfl⟩
  · have hPnl : noTwo '\n' (processLines l2) = true := by
      unfold processLines
      exact joinNL_noTwo_nl (fun x hx => ⟨(hlines x hx).1, (hlines x hx).2.1⟩)
    have hPsp : noTwo ' ' (processLines l2) = true := by
      unfold processLines
      exact joinNL_noTwo_of_ne_nl (by decide) (fun x hx => (hlines x hx).2.2.1)
    have hPmem : ∀ c ∈ processLines l2, c ∈ l2 ∨ c = '\n' := by
      intro c hc
      unfold processLines at hc
      rcases mem_joinNL _ c hc with ⟨y, hy, hcy⟩ | h
      · exact Or.inl ((hlines y hy).2.2.2.2.2.2.2 c hcy)
      · exact Or.inr h
    have hPamp : '&' ∉ processLines l2 := by
      intro hc
      rcases hPmem '&' hc with h | h
      · exact hamp h
      · cases h
    have hPlt : '<' ∉ processLines l2 := by
      intro hc
      rcases hPmem '<' hc with h | h
      · exact hlt h
      · cases h
    have hPgt : '>' ∉ processLines l2 := by
      intro hc
      rcases hPmem '>' hc with h | h
      · exact hgt h
      · cases h
    have hPtab : '\t' ∉ processLines l2 := by
      intro hc
      rcases hPmem '\t' hc with h | h
      · exact htab h
      · cases h
    have e_nl : subAll nlM ("\n\n".data) (processLines l2) = processLines l2 :=
      subAll_nlM_eq_self hPnl
    have e_gt : subAll numGtM [] (processLines l2) = processLines l2 :=
      subAll_eq_self_of_not_mem numGtM [] '>' (fun t r h => numGtM_mem h) hPgt
    have e_mp : subAll minProdM [] (processLines l2) = processLines l2 :=
      subAll_eq_self_of_not_mem minProdM [] '&' (fun t r h => minProdM_mem h) hPamp
    have e_strip : stripWS (processLines l2) = processLines l2 := by
      have hfront : (processLines l2).dropWhile pySpace = processLines l2 := by
        apply dropWhile_eq_self_of_headNot
        unfold processLines
        exact headNotP_joinNL (fun x hx => ⟨(hlines x hx).1, (hlines x hx).2.2.2.2.1⟩)
      show dropEndWhile pySpace ((processLines l2).dropWhile pySpace) = processLines l2
      rw [hfront]
      unfold processLines
      exact dropEndWhile_joinNL (fun x hx => ⟨(hlines x hx).1, (hlines x hx).2.2.2.2.2.1⟩)
    have hA : stripWS (subAll minProdM [] (subAll numGtM []
        (subAll nlM ("\n\n".data) (processLines l2)))) = processLines l2 := by
      rw [e_nl, e_gt, e_mp, e_strip]
    refine ⟨hA, ?_⟩
    have e_space : subAll spaceM (" ".data) (processLines l2) = processLines l2 :=
      subAll_spaceM_eq_self hPsp
    have e_tab : subAll tabM (" ".data) (processLines l2) = processLines l2 :=
      subAll_eq_self_of_not_mem tabM (" ".data) '\t' (fun t r h => tabM_mem h) hPtab
    have e_pl : processLines (processLines l2) = processLines l2 := by
      conv_lhs => unfold processLines
      rw [show processLines l2 =
        joinNL (((splitNL l2).map stripWS).filter keepLine) from rfl]
      rw [splitNL_joinNL _ hnil (fun x hx => (hlines x hx).2.1)]
      rw [map_eq_self_of (fun x hx => (hlines x hx).2.2.2.1)]
      rw [filter_eq_self.mpr (fun x hx => (hlines x hx).2.2.2.2.2.2.1)]
    rw [clean_html_plain hPamp hPlt, e_space, e_tab, e_pl, hA]

/-- C5 (amended): on every input that contains none of the characters `&`,
`<`, `>`, tab, re-running the HTML Extractor on its own output is a no-op.
In general `clean_html` is NOT idempotent (see the counterexample): decoded
entities can recreate entity text, and tab collapsing can create new runs of
spaces, which a second pass processes further. -/
theorem C5_clean_html_idempotent_on_plain_text (s : List Char)
    (hamp : '&' ∉ s) (hlt : '<' ∉ s) (hgt : '>' ∉ s) (htab : '\t' ∉ s) :
    clean_html (clean_html s) = clean_html s := by
  have h2amp : '&' ∉ subAll spaceM (" ".data) s := by
    intro hc
    rcases mem_subF spaceM_suffix _ _ _ hc with h | h
    · exact hamp h
    · simp at h
  have h2lt : '<' ∉ subAll spaceM (" ".data) s := by
    intro hc
    rcases mem_subF spaceM_suffix _ _ _ hc with h | h
    · exact hlt h
    · simp at h
  have h2gt : '>' ∉ subAll spaceM (" ".data) s := by
    intro hc
    rcases mem_subF spaceM_suffix _ _ _ hc with h | h
    · exact hgt h
    · simp at h
  have h2tab : '\t' ∉ subAll spaceM (" ".data) s := by
    intro hc
    rcases mem_subF spaceM_suffix _ _ _ hc with h | h
    · exact htab h
    · simp at h
  have h2sp : noTwo ' ' (subAll spaceM (" ".data) s) = true :=
    subF_spaceM_noTwo _ _ le_rfl
  have e_tab : subAll tabM (" ".data) (subAll spaceM (" ".data) s) =
      subAll spaceM (" ".data) s :=
    subAll_eq_self_of_not_mem tabM (" ".data) '\t' (fun t r h => tabM_mem h) h2tab
  obtain ⟨hA, hB⟩ := clean_html_fixed_on_processLines h2amp h2lt h2gt h2tab h2sp
  have h1 : clean_html s = processLines (subAll spaceM (" ".data) s) := by
    rw [clean_html_plain hamp hlt, e_tab, hA]
  rw [h1, hB]

/-- C5 (counterexample): the HTML Extractor is not idempotent.  On input
`&amp;amp;` the first pass decodes the first `&amp;` and leaves `&amp;`; the
second pass decodes again and leaves `&`. -/
theorem C5_counterexample :
    clean_html (clean_html (("&amp;amp;").data)) ≠ clean_html (("&amp;amp;").data) := by
  decide

/-- C5 witness. -/
theorem C5_witness :
    ('&' ∉ ("hi there\nsecond line").data ∧ '<' ∉ ("hi there\nsecond line").data ∧
      '>' ∉ ("hi there\nsecond line").data ∧ '\t' ∉ ("hi there\nsecond line").data) ∧
      clean_html (clean_html (("hi there\nsecond line").data)) =
        clean_html (("hi there\nsecond line").data) :=
  ⟨by decide,
    C5_clean_html_idempotent_on_plain_text (("hi there\nsecond line").data)
      (by decide) (by decide) (by decide) (by decide)⟩

/-- C7 (counterexample): in the lab5 revision a connect failure is NOT
surfaced as a formatted error string — there is no exception handler, so the
raw failure escapes (the process dies with a traceback); the only part of
the claim it keeps is that nothing is cached. -/
theorem C7_counterexample :
    lab5_go_to_url id (fun _ _ => .error (("connect refused").data)) [] 0
        (("h").data) (("/").data) =
      (.error (("connect refused").data), []) := rfl
